import Mathlib

/-!
Verification of the browser-ai text-based function-calling protocol core and
the worker benchmark harness.

Strings are modelled as `List Char`.  The protocol core (fence detector, call
parser, prompt builder, result formatter) is not shipped in `src/` (only its
test file and type re-exports are), so those operations are modelled from the
specification; the worker benchmark model follows
`src/examples/next-hybrid/app/transformers-js/util/worker-benchmark.ts`.
-/

set_option maxRecDepth 10000

namespace BrowserAI

/-- Strings are modelled as lists of characters. -/
abbrev Str := List Char

/-- The backquote character, written via its code point. -/
def backquote : Char := Char.ofNat 96

/-- Modelled from the spec: the literal opening marker line of a tool-call
fence (spec section 6: "a line containing the literal opening marker for tool
calls"). -/
def openMarker : Str := "```tool_call\n".toList

/-- Modelled from the spec: the closing marker, a newline followed by the bare
closing marker line (spec section 6). -/
def closeMarker : Str := "\n```".toList

/-- Modelled from the spec: the literal opening marker line of a tool-result
fence (spec section 6: "the literal opening marker for tool results", a
distinct literal from the call-fence marker). -/
def resultOpenMarker : Str := "```tool_result\n".toList

/-- First index at which `p` occurs as a contiguous substring of `t`. -/
def findSubstr (p : Str) : Str → Option Nat
  | [] => if p.isPrefixOf ([] : Str) then some 0 else none
  | c :: tl =>
    if p.isPrefixOf (c :: tl) then some 0
    else (findSubstr p tl).map (· + 1)

/-- Modelled from the spec: scan a text for the first complete
`opening-marker ... closing-marker` span (spec section 4.3).  Returns the
start index, the end index (exclusive) and the inner content of the span. -/
def findFenceSpan (t : Str) : Option (Nat × Nat × Str) :=
  match findSubstr openMarker t with
  | none => none
  | some i =>
    let afterOpen := t.drop (i + openMarker.length)
    match findSubstr closeMarker afterOpen with
    | none => none
    | some j =>
      some (i, i + openMarker.length + j + closeMarker.length, afterOpen.take j)

/-- Whitespace test used for trimming. -/
def isWSChar (c : Char) : Bool := c = ' ' || c = '\n' || c = '\t' || c = '\r'

/-- Trim whitespace from both ends of a string. -/
def trimStr (s : Str) : Str :=
  ((s.dropWhile isWSChar).reverse.dropWhile isWSChar).reverse

/-- Modelled from the spec: the mutable state of one `ToolCallFenceDetector`
instance (spec section 3): a cumulative buffer; consumed spans are dropped
from its front, which realises the internal read cursor of section 4.3. -/
structure DetState where
  buffer : Str
deriving DecidableEq

/-- Modelled from the spec: `addChunk` appends the chunk to the internal
buffer (spec section 4.3); correctness depends only on cumulative buffer
content. -/
def addChunk (s : DetState) (text : Str) : DetState :=
  ⟨s.buffer ++ text⟩

/-- A fresh detector instance with an empty buffer. -/
def initDetector : DetState := ⟨[]⟩

/-- Modelled from the spec: `detectFence` scans the buffer for the first
complete span; if found it returns the trimmed inner content and advances
past the consumed span, otherwise it returns `none` and leaves the state
unchanged (spec section 4.3). -/
def detectFence (s : DetState) : Option Str × DetState :=
  match findFenceSpan s.buffer with
  | none => (none, s)
  | some (_, e, inner) => (some (trimStr inner), ⟨s.buffer.drop e⟩)

/-- Call `detectFence` repeatedly (at most `fuel` times), collecting every
fence produced until the first `none` result. -/
def detectorRun : Nat → DetState → List Str × DetState
  | 0, s => ([], s)
  | fuel + 1, s =>
    match detectFence s with
    | (none, s') => ([], s')
    | (some f, s') =>
      let r := detectorRun fuel s'
      (f :: r.1, r.2)

/-- Feeding chunks one by one only ever concatenates them in the buffer. -/
theorem foldl_addChunk_buffer (chunks : List Str) :
    ∀ s : DetState, (chunks.foldl addChunk s).buffer = s.buffer ++ chunks.flatten := by
  induction chunks with
  | nil => intro s; simp
  | cons c tl ih =>
    intro s
    simp only [List.foldl_cons, List.flatten_cons, ih, addChunk, List.append_assoc]

/-- Claim C1: chunk-split invariance of the fence detector.  For every way of
partitioning a text into a finite sequence of chunks delivered in order via
successive `addChunk` calls on one detector instance, the final `detectFence`
call (result and successor state alike) coincides with feeding the whole text
(the join of the chunks) as a single `addChunk` call. -/
theorem chunk_split_invariance (chunks : List Str) :
    detectFence (chunks.foldl addChunk initDetector)
      = detectFence (addChunk initDetector chunks.flatten) := by
  have h : chunks.foldl addChunk initDetector = addChunk initDetector chunks.flatten := by
    have hb := foldl_addChunk_buffer chunks initDetector
    have heta : chunks.foldl addChunk initDetector
        = ⟨(chunks.foldl addChunk initDetector).buffer⟩ := rfl
    rw [heta, hb]
    simp [initDetector, addChunk]
  rw [h]

/-- Claim C7: an unterminated fence is not an error.  If the buffer contains
the opening marker but no closing marker after it, then any number of
repeated `detectFence` calls yields no fence and leaves the detector state
unchanged, until further `addChunk` input arrives. -/
theorem unterminated_fence_stays_null (s : DetState) (i : Nat)
    (hopen : findSubstr openMarker s.buffer = some i)
    (hclose : findSubstr closeMarker (s.buffer.drop (i + openMarker.length)) = none) :
    ∀ n : Nat, detectorRun n s = ([], s) := by
  have hdet : detectFence s = (none, s) := by
    unfold detectFence findFenceSpan
    rw [hopen]
    simp only [hclose]
  intro n
  cases n with
  | zero => rfl
  | succ m => simp [detectorRun, hdet]

/-- Witness for claim C7's theorem at a concrete unterminated buffer. -/
theorem unterminated_fence_stays_null_witness :
    findSubstr openMarker ("```tool_call\n".toList ++ "partial".toList) = some 0 ∧
    findSubstr closeMarker
      (("```tool_call\n".toList ++ "partial".toList).drop (0 + openMarker.length)) = none ∧
    detectorRun 3 ⟨"```tool_call\n".toList ++ "partial".toList⟩
      = ([], ⟨"```tool_call\n".toList ++ "partial".toList⟩) := by
  refine ⟨by decide, by decide, ?_⟩
  exact unterminated_fence_stays_null ⟨"```tool_call\n".toList ++ "partial".toList⟩ 0
    (by decide) (by decide) 3

/-- A list is a Boolean prefix of itself followed by anything. -/
theorem isPrefixOf_self_append (l u : Str) : l.isPrefixOf (l ++ u) = true := by
  induction l with
  | nil => simp [List.isPrefixOf]
  | cons c tl ih => simp [List.isPrefixOf, ih]

/-- When the Boolean prefix test succeeds, the first occurrence is at 0. -/
theorem findSubstr_of_isPrefixOf {p t : Str} (h : p.isPrefixOf t = true) :
    findSubstr p t = some 0 := by
  cases t with
  | nil => simp [findSubstr, h]
  | cons c tl => simp [findSubstr, h]

/-- Searching for a pattern whose first character does not occur in a prefix
block skips that block entirely. -/
theorem findSubstr_append_of_head_notMem (c : Char) (p' : Str) :
    ∀ t u : Str, c ∉ t →
      findSubstr (c :: p') (t ++ u) = (findSubstr (c :: p') u).map (· + t.length) := by
  intro t
  induction t with
  | nil =>
    intro u _
    cases h : findSubstr (c :: p') u <;> simp [h]
  | cons x tl ih =>
    intro u hx
    have hcx : c ≠ x := fun h => hx (h ▸ List.mem_cons_self x tl)
    have htl : c ∉ tl := fun h => hx (List.mem_cons_of_mem x h)
    have hpre : ¬ ((c :: p').isPrefixOf (x :: (tl ++ u)) = true) := by
      have hb : (c == x) = false := beq_eq_false_iff_ne.mpr hcx
      simp [List.isPrefixOf, hb]
    have hstep : findSubstr (c :: p') ((x :: tl) ++ u)
        = (findSubstr (c :: p') (tl ++ u)).map (· + 1) := by
      simp only [List.cons_append, findSubstr, List.append_eq]
      rw [if_neg hpre]
    rw [hstep, ih u htl]
    cases h : findSubstr (c :: p') u with
    | none => simp [h]
    | some v =>
      simp only [h, Option.map_some', List.length_cons, Option.some.injEq]
      omega

/-- A pattern whose first character is absent from the text never occurs. -/
theorem findSubstr_none_of_head_notMem (c : Char) (p' : Str) (t : Str) (h : c ∉ t) :
    findSubstr (c :: p') t = none := by
  have := findSubstr_append_of_head_notMem c p' t [] h
  simpa [findSubstr, List.isPrefixOf] using this

/-- Modelled from the spec: one complete fence block on the wire — opening
marker line, inner content, closing marker line (spec sections 4.3 and 6). -/
def encFence (body : Str) : Str := openMarker ++ body ++ closeMarker

/-- A stream consisting of interleaved separator text and complete fences,
with trailing text `t`.  Each pair holds (separator, fence body). -/
def buildText (ps : List (Str × Str)) (t : Str) : Str :=
  (ps.map fun p => p.1 ++ encFence p.2).flatten ++ t

theorem buildText_nil (t : Str) : buildText [] t = t := by
  simp [buildText]

theorem buildText_cons (s b : Str) (ps : List (Str × Str)) (t : Str) :
    buildText ((s, b) :: ps) t = s ++ encFence b ++ buildText ps t := by
  simp [buildText, List.append_assoc]

theorem openMarker_eq : openMarker = backquote :: "``tool_call\n".toList := by decide

theorem closeMarker_eq : closeMarker = '\n' :: "```".toList := by decide

/-- The first complete span of a well-separated stream is located exactly at
the first fence: the separator holds no backquote and the body holds no
newline. -/
theorem findFenceSpan_structured (s b rest : Str)
    (hs : backquote ∉ s) (hb : '\n' ∉ b) :
    findFenceSpan (s ++ encFence b ++ rest)
      = some (s.length,
              s.length + openMarker.length + b.length + closeMarker.length, b) := by
  have hassoc : s ++ encFence b ++ rest
      = s ++ (openMarker ++ (b ++ (closeMarker ++ rest))) := by
    simp [encFence, List.append_assoc]
  have hopen : findSubstr openMarker (s ++ encFence b ++ rest) = some s.length := by
    rw [hassoc, openMarker_eq]
    rw [findSubstr_append_of_head_notMem backquote _ s _ hs]
    rw [← openMarker_eq]
    have h0 : findSubstr openMarker (openMarker ++ (b ++ (closeMarker ++ rest)))
        = some 0 := findSubstr_of_isPrefixOf (isPrefixOf_self_append _ _)
    simp [h0]
  have hdropOpen : (s ++ encFence b ++ rest).drop (s.length + openMarker.length)
      = b ++ (closeMarker ++ rest) := by
    have : s ++ encFence b ++ rest
        = (s ++ openMarker) ++ (b ++ (closeMarker ++ rest)) := by
      simp [encFence, List.append_assoc]
    rw [this, List.drop_left' (by simp)]
  have hclose : findSubstr closeMarker (b ++ (closeMarker ++ rest))
      = some b.length := by
    rw [closeMarker_eq, findSubstr_append_of_head_notMem '\n' _ b _ hb,
      ← closeMarker_eq]
    have h0 : findSubstr closeMarker (closeMarker ++ rest) = some 0 :=
      findSubstr_of_isPrefixOf (isPrefixOf_self_append _ _)
    simp [h0]
  have htake : (b ++ (closeMarker ++ rest)).take b.length = b :=
    List.take_left' rfl
  unfold findFenceSpan
  rw [hopen]
  simp only [hdropOpen, hclose, htake]

/-- After consuming a structured fence, exactly the text past its closing
marker remains. -/
theorem drop_encFence (s b rest : Str) :
    (s ++ encFence b ++ rest).drop
        (s.length + openMarker.length + b.length + closeMarker.length) = rest := by
  have : s ++ encFence b ++ rest = (s ++ (openMarker ++ b ++ closeMarker)) ++ rest := by
    simp [encFence, List.append_assoc]
  rw [this, List.drop_left' (by simp [Nat.add_assoc])]

/-- One `detectFence` step on a well-separated stream returns the first body
(trimmed) and consumes precisely through its closing marker. -/
theorem detectFence_structured (s b rest : Str)
    (hs : backquote ∉ s) (hb : '\n' ∉ b) :
    detectFence ⟨s ++ encFence b ++ rest⟩ = (some (trimStr b), ⟨rest⟩) := by
  unfold detectFence
  simp only [findFenceSpan_structured s b rest hs hb, drop_encFence]

/-- With no backquote in the buffer there is no fence to detect. -/
theorem detectFence_no_backquote (t : Str) (h : backquote ∉ t) :
    detectFence ⟨t⟩ = (none, ⟨t⟩) := by
  unfold detectFence findFenceSpan
  rw [openMarker_eq, findSubstr_none_of_head_notMem backquote _ t h]

/-- Unfolding one successful step of `detectorRun`. -/
theorem detectorRun_succ_of_fence (fuel : Nat) (s : DetState) (f : Str) (s' : DetState)
    (h : detectFence s = (some f, s')) :
    detectorRun (fuel + 1) s
      = (f :: (detectorRun fuel s').1, (detectorRun fuel s').2) := by
  simp [detectorRun, h]

/-- Running the detector over a well-separated stream yields the trimmed
bodies, once each, in order of appearance, and parks the detector on the
trailing text. -/
theorem detectorRun_structured :
    ∀ (ps : List (Str × Str)) (t : Str),
      (∀ p ∈ ps, backquote ∉ p.1 ∧ '\n' ∉ p.2) → backquote ∉ t →
      detectorRun (ps.length + 1) ⟨buildText ps t⟩
        = (ps.map fun p => trimStr p.2, ⟨t⟩) := by
  intro ps
  induction ps with
  | nil =>
    intro t _ ht
    simp [detectorRun, buildText_nil, detectFence_no_backquote t ht]
  | cons p tl ih =>
    intro t hgood ht
    obtain ⟨s, b⟩ := p
    have hp := hgood (s, b) (List.mem_cons_self _ _)
    have hrest : ∀ q ∈ tl, backquote ∉ q.1 ∧ '\n' ∉ q.2 := fun q hq =>
      hgood q (List.mem_cons_of_mem _ hq)
    simp only [List.length_cons, buildText_cons]
    rw [detectorRun_succ_of_fence _ _ _ _
      (detectFence_structured s b (buildText tl t) hp.1 hp.2)]
    rw [ih t hrest ht]
    simp

/-- Claim C3: in a stream of sequential complete fences, each fence is
returned by `detectFence` exactly once and in order of appearance — running
the detector over a well-separated stream (fence bodies free of newlines,
surrounding text free of backquotes) produces exactly the list of trimmed
bodies, in order, leaving only the trailing text — and a `detectFence` call
that returns no fence leaves the state unchanged, so repeated calls with no
intervening `addChunk` keep returning the same `none` result. -/
theorem fences_detected_once_in_order :
    (∀ (ps : List (Str × Str)) (t : Str),
        (∀ p ∈ ps, backquote ∉ p.1 ∧ '\n' ∉ p.2) → backquote ∉ t →
        detectorRun (ps.length + 1) (addChunk initDetector (buildText ps t))
          = (ps.map fun p => trimStr p.2, ⟨t⟩)) ∧
    (∀ s : DetState, (detectFence s).1 = none → detectFence s = (none, s)) := by
  constructor
  · intro ps t hgood ht
    have : addChunk initDetector (buildText ps t) = ⟨buildText ps t⟩ := by
      simp [addChunk, initDetector]
    rw [this]
    exact detectorRun_structured ps t hgood ht
  · intro s h
    unfold detectFence at h ⊢
    cases hs : findFenceSpan s.buffer with
    | none => rfl
    | some v =>
      obtain ⟨i, e, inner⟩ := v
      rw [hs] at h
      simp at h

/-- Witness for claim C3's theorem on a concrete two-fence stream. -/
theorem fences_detected_once_in_order_witness :
    detectorRun 3 (addChunk initDetector
        (buildText [("x".toList, "one".toList), ([], "two".toList)] "y".toList))
      = (["one".toList, "two".toList], ⟨"y".toList⟩) := by
  have h := fences_detected_once_in_order.1
    [("x".toList, "one".toList), ([], "two".toList)] "y".toList
    (by decide) (by decide)
  simpa using h

/-! JSON values, their canonical rendering and a canonical parser.  The call
parser of spec section 4.4 JSON-decodes fence contents; this mutual inductive
models JSON values, with object/array spines as dedicated types so that all
recursion stays structural. -/

mutual

/-- A JSON value (numbers restricted to integers, which suffices for the wire
format of spec section 6). -/
inductive Json where
  | null : Json
  | bool (b : Bool) : Json
  | num (i : Int) : Json
  | str (s : Str) : Json
  | arr (es : JsonList) : Json
  | obj (ms : JsonMembers) : Json

/-- The element spine of a JSON array. -/
inductive JsonList where
  | nil : JsonList
  | cons (hd : Json) (tl : JsonList) : JsonList

/-- The member spine of a JSON object. -/
inductive JsonMembers where
  | nil : JsonMembers
  | cons (k : Str) (v : Json) (tl : JsonMembers) : JsonMembers

end

deriving instance DecidableEq for Json, JsonList, JsonMembers

/-- Decimal digit test on character codes. -/
def isDigitChar (c : Char) : Bool := 48 ≤ c.toNat && c.toNat ≤ 57

/-- The decimal digit character for a value below ten. -/
def digitChar : Nat → Char
  | 0 => '0' | 1 => '1' | 2 => '2' | 3 => '3' | 4 => '4'
  | 5 => '5' | 6 => '6' | 7 => '7' | 8 => '8' | _ => '9'

/-- Decimal rendering of a natural number, most significant digit first; the
fuel argument keeps the recursion structural. -/
def renderNatAux : Nat → Nat → Str
  | 0, _ => []
  | fuel + 1, n =>
    if n < 10 then [digitChar n]
    else renderNatAux fuel (n / 10) ++ [digitChar (n % 10)]

/-- Decimal rendering of a natural number. -/
def renderNat (n : Nat) : Str := renderNatAux (n + 1) n

/-- Decimal rendering of an integer. -/
def renderInt (i : Int) : Str :=
  if i < 0 then '-' :: renderNat i.natAbs else renderNat i.natAbs

/-- The lowercase hexadecimal digit character for a value below sixteen. -/
def hexDigit : Nat → Char
  | 0 => '0' | 1 => '1' | 2 => '2' | 3 => '3' | 4 => '4'
  | 5 => '5' | 6 => '6' | 7 => '7' | 8 => '8' | 9 => '9'
  | 10 => 'a' | 11 => 'b' | 12 => 'c' | 13 => 'd' | 14 => 'e' | _ => 'f'

/-- JSON string escaping of one character: quote and backslash get a
backslash escape, backspace, form feed, newline, carriage return and tab get
their short escapes, every other control character below U+0020 gets a
`u00XX` escape, and everything else is emitted verbatim — mirroring
`JSON.stringify`. -/
def escapeChar (c : Char) : Str :=
  if c = '"' then ['\\', '"']
  else if c = '\\' then ['\\', '\\']
  else if c = '\x08' then ['\\', 'b']
  else if c = '\x0c' then ['\\', 'f']
  else if c = '\n' then ['\\', 'n']
  else if c = '\r' then ['\\', 'r']
  else if c = '\t' then ['\\', 't']
  else if c.toNat < 32 then
    ['\\', 'u', '0', '0', hexDigit (c.toNat / 16), hexDigit (c.toNat % 16)]
  else [c]

/-- JSON string escaping. -/
def escapeStr : Str → Str
  | [] => []
  | c :: tl => escapeChar c ++ escapeStr tl

/-- A JSON string literal: quote, escaped content, quote. -/
def renderStr (s : Str) : Str := '"' :: escapeStr s ++ ['"']

mutual

/-- Canonical (whitespace-free) rendering of a JSON value. -/
def renderJson : Json → Str
  | .null => "null".toList
  | .bool true => "true".toList
  | .bool false => "false".toList
  | .num i => renderInt i
  | .str s => renderStr s
  | .arr es => '[' :: renderJsonList es ++ [']']
  | .obj ms => '\x7b' :: renderJsonMembers ms ++ ['\x7d']

/-- Comma-separated rendering of array elements. -/
def renderJsonList : JsonList → Str
  | .nil => []
  | .cons e tl =>
    match tl with
    | .nil => renderJson e
    | .cons _ _ => renderJson e ++ ',' :: renderJsonList tl

/-- Comma-separated rendering of object members. -/
def renderJsonMembers : JsonMembers → Str
  | .nil => []
  | .cons k v tl =>
    match tl with
    | .nil => renderStr k ++ ':' :: renderJson v
    | .cons _ _ _ => renderStr k ++ ':' :: renderJson v ++ ',' :: renderJsonMembers tl

end

mutual

/-- Fuel budget a parser run needs for a value; dominated by the rendering
length. -/
def jsize : Json → Nat
  | .null => 1
  | .bool _ => 1
  | .num _ => 1
  | .str _ => 1
  | .arr es => 1 + jsizeL es
  | .obj ms => 1 + jsizeM ms

/-- Fuel budget for an array spine. -/
def jsizeL : JsonList → Nat
  | .nil => 0
  | .cons e tl => jsize e + 1 + jsizeL tl

/-- Fuel budget for a member spine. -/
def jsizeM : JsonMembers → Nat
  | .nil => 0
  | .cons _ v tl => jsize v + 1 + jsizeM tl

end

/-- Accumulate decimal digits from the front of the input. -/
def parseDigits : Str → Nat → Nat × Str
  | [], acc => (acc, [])
  | c :: tl, acc =>
    if isDigitChar c then parseDigits tl (10 * acc + (c.toNat - 48))
    else (acc, c :: tl)

/-- Decode one escape letter. -/
def unescapeChar (c : Char) : Option Char :=
  if c = 'n' then some '\n'
  else if c = 'r' then some '\r'
  else if c = 't' then some '\t'
  else if c = 'b' then some '\x08'
  else if c = 'f' then some '\x0c'
  else if c = '"' then some '"'
  else if c = '\\' then some '\\'
  else none

/-- The value of one lowercase hexadecimal digit character. -/
def hexVal (c : Char) : Option Nat :=
  if 48 ≤ c.toNat ∧ c.toNat ≤ 57 then some (c.toNat - 48)
  else if 97 ≤ c.toNat ∧ c.toNat ≤ 102 then some (c.toNat - 87)
  else none

/-- Parse a JSON string body after the opening quote, up to and including the
closing quote; returns the unescaped content and the rest of the input. -/
def parseStrBody : Str → Option (Str × Str)
  | [] => none
  | c :: tl =>
    if c = '"' then some ([], tl)
    else if c = '\\' then
      match tl with
      | [] => none
      | e :: tl2 =>
        if e = 'u' then
          match tl2 with
          | h1 :: h2 :: h3 :: h4 :: tl3 =>
            match hexVal h1, hexVal h2, hexVal h3, hexVal h4 with
            | some a, some b, some c2, some d2 =>
              match parseStrBody tl3 with
              | none => none
              | some p =>
                some (Char.ofNat (((a * 16 + b) * 16 + c2) * 16 + d2) :: p.1, p.2)
            | _, _, _, _ => none
          | _ => none
        else
          match unescapeChar e with
          | none => none
          | some d =>
            match parseStrBody tl2 with
            | none => none
            | some p => some (d :: p.1, p.2)
    else
      match parseStrBody tl with
      | none => none
      | some p => some (c :: p.1, p.2)

mutual

/-- Parse one canonical JSON value from the front of the input. -/
def parseVal : Nat → Str → Option (Json × Str)
  | 0, _ => none
  | _ + 1, [] => none
  | fuel + 1, c :: r =>
    if c = 'n' then
      if "ull".toList.isPrefixOf r then some (.null, r.drop 3) else none
    else if c = 't' then
      if "rue".toList.isPrefixOf r then some (.bool true, r.drop 3) else none
    else if c = 'f' then
      if "alse".toList.isPrefixOf r then some (.bool false, r.drop 4) else none
    else if c = '"' then
      match parseStrBody r with
      | none => none
      | some p => some (.str p.1, p.2)
    else if c = '[' then
      match r with
      | [] => none
      | d :: r2 =>
        if d = ']' then some (.arr .nil, r2)
        else
          match parseElems fuel r with
          | none => none
          | some p => some (.arr p.1, p.2)
    else if c = '\x7b' then
      match r with
      | [] => none
      | d :: r2 =>
        if d = '\x7d' then some (.obj .nil, r2)
        else
          match parseMembers fuel r with
          | none => none
          | some p => some (.obj p.1, p.2)
    else if c = '-' then
      match r with
      | [] => none
      | d :: r2 =>
        if isDigitChar d then
          some (.num (-((parseDigits r2 (d.toNat - 48)).1 : Int)),
                (parseDigits r2 (d.toNat - 48)).2)
        else none
    else if isDigitChar c then
      some (.num ((parseDigits r (c.toNat - 48)).1 : Int),
            (parseDigits r (c.toNat - 48)).2)
    else none

/-- Parse `value (COMMA value)* RBRACKET` for a non-empty array. -/
def parseElems : Nat → Str → Option (JsonList × Str)
  | 0, _ => none
  | fuel + 1, s =>
    match parseVal fuel s with
    | none => none
    | some (v, r) =>
      match r with
      | [] => none
      | d :: r2 =>
        if d = ',' then
          match parseElems fuel r2 with
          | none => none
          | some p => some (.cons v p.1, p.2)
        else if d = ']' then some (.cons v .nil, r2)
        else none

/-- Parse `string COLON value (COMMA member)* RBRACE` for a non-empty
object. -/
def parseMembers : Nat → Str → Option (JsonMembers × Str)
  | 0, _ => none
  | fuel + 1, s =>
    match s with
    | [] => none
    | c :: r =>
      if c = '"' then
        match parseStrBody r with
        | none => none
        | some (k, r2) =>
          match r2 with
          | [] => none
          | d :: r3 =>
            if d = ':' then
              match parseVal fuel r3 with
              | none => none
              | some (v, r4) =>
                match r4 with
                | [] => none
                | e2 :: r5 =>
                  if e2 = ',' then
                    match parseMembers fuel r5 with
                    | none => none
                    | some p => some (.cons k v p.1, p.2)
                  else if e2 = '\x7d' then some (.cons k v .nil, r5)
                  else none
            else none
      else none

end

/-- Parse a whole string as one canonical JSON value, requiring the input to
be consumed completely. -/
def parseJson (s : Str) : Option Json :=
  match parseVal (s.length + 1) s with
  | some (v, []) => some v
  | _ => none

/-- Look a key up in an object spine. -/
def lookupKey (key : Str) : JsonMembers → Option Json
  | .nil => none
  | .cons k v tl => if k = key then some v else lookupKey key tl

/-- Modelled from the spec: JSON-decode a fence body as
`\x7b"name": string, "arguments": object\x7d` (spec section 4.4); any failure
yields `none`. -/
def decodeCall (s : Str) : Option (Str × Json) :=
  match parseJson s with
  | some (Json.obj ms) =>
    match lookupKey "name".toList ms, lookupKey "arguments".toList ms with
    | some (Json.str n), some (Json.obj a) => some (n, Json.obj a)
    | _, _ => none
  | _ => none

/-- Digit accumulation step. -/
def digitStep (a : Nat) (c : Char) : Nat := 10 * a + (c.toNat - 48)

/-- Head-of-input digit test. -/
def headIsDigit : Str → Bool
  | [] => false
  | c :: _ => isDigitChar c

/-- Consuming a block of digits folds them into the accumulator. -/
theorem parseDigits_append (ds : Str) :
    ∀ (rest : Str) (acc : Nat), (∀ c ∈ ds, isDigitChar c = true) →
      parseDigits (ds ++ rest) acc = parseDigits rest (ds.foldl digitStep acc) := by
  induction ds with
  | nil => intro rest acc _; rfl
  | cons c tl ih =>
    intro rest acc hds
    have hc : isDigitChar c = true := hds c (List.mem_cons_self _ _)
    have htl : ∀ x ∈ tl, isDigitChar x = true := fun x hx =>
      hds x (List.mem_cons_of_mem _ hx)
    simp only [List.cons_append, parseDigits, hc, if_true, List.foldl_cons]
    exact ih rest (10 * acc + (c.toNat - 48)) htl

/-- Digit accumulation stops at a non-digit head. -/
theorem parseDigits_stop (rest : Str) (acc : Nat) (h : headIsDigit rest = false) :
    parseDigits rest acc = (acc, rest) := by
  cases rest with
  | nil => rfl
  | cons c tl =>
    simp only [headIsDigit] at h
    simp [parseDigits, h]

/-- Core facts about decimal rendering: the output is all digits, non-empty,
and folding the digit step over it recovers the rendered number. -/
theorem renderNatAux_spec :
    ∀ (fuel n : Nat), n < fuel →
      (∀ c ∈ renderNatAux fuel n, isDigitChar c = true) ∧
      renderNatAux fuel n ≠ [] ∧
      (∀ acc, (renderNatAux fuel n).foldl digitStep acc
          = acc * 10 ^ (renderNatAux fuel n).length + n) := by
  intro fuel
  induction fuel with
  | zero => intro n hn; omega
  | succ f ih =>
    intro n hn
    by_cases h10 : n < 10
    · refine ⟨?_, ?_, ?_⟩
      · intro c hc
        simp only [renderNatAux, h10, if_true, List.mem_singleton] at hc
        subst hc
        interval_cases n <;> decide
      · simp [renderNatAux, h10]
      · intro acc
        simp only [renderNatAux, h10, if_true, List.foldl_cons, List.foldl_nil,
          List.length_singleton, pow_one, digitStep]
        have hd : (digitChar n).toNat - 48 = n := by interval_cases n <;> decide
        omega
    · have hdiv : n / 10 < f := by
        have h1 : n / 10 < n := Nat.div_lt_self (by omega) (by omega)
        omega
      obtain ⟨hdig, hne, hfold⟩ := ih (n / 10) hdiv
      have hmod : n % 10 < 10 := Nat.mod_lt _ (by omega)
      have hmodd : isDigitChar (digitChar (n % 10)) = true := by
        revert hmod
        generalize n % 10 = m
        intro h
        interval_cases m <;> decide
      have hdv : (digitChar (n % 10)).toNat - 48 = n % 10 := by
        revert hmod hmodd
        generalize n % 10 = m
        intro h _
        interval_cases m <;> decide
      refine ⟨?_, ?_, ?_⟩
      · intro c hc
        simp only [renderNatAux, h10, if_false, List.mem_append,
          List.mem_singleton] at hc
        rcases hc with hc | hc
        · exact hdig c hc
        · subst hc; exact hmodd
      · simp [renderNatAux, h10]
      · intro acc
        simp only [renderNatAux, h10, if_false, List.foldl_append,
          List.foldl_cons, List.foldl_nil, List.length_append,
          List.length_singleton, hfold]
        simp only [digitStep, hdv]
        have hpow : 10 ^ ((renderNatAux f (n / 10)).length + 1)
            = 10 ^ (renderNatAux f (n / 10)).length * 10 := pow_succ 10 _
        have hsplit : 10 * (n / 10) + n % 10 = n := Nat.div_add_mod n 10
        rw [hpow]
        ring_nf
        omega

/-- The decimal rendering of `n` is non-empty and consists of digits. -/
theorem renderNat_spec (n : Nat) :
    (∀ c ∈ renderNat n, isDigitChar c = true) ∧ renderNat n ≠ [] ∧
    (∀ acc, (renderNat n).foldl digitStep acc
        = acc * 10 ^ (renderNat n).length + n) :=
  renderNatAux_spec (n + 1) n (Nat.lt_succ_self n)

/-- A digit character is none of the characters the value parser dispatches
on. -/
theorem digit_char_ne (c : Char) (h : isDigitChar c = true) :
    c ≠ 'n' ∧ c ≠ 't' ∧ c ≠ 'f' ∧ c ≠ '"' ∧ c ≠ '[' ∧ c ≠ '\x7b' ∧ c ≠ '-' ∧
    c ≠ ']' ∧ c ≠ ',' ∧ c ≠ '\x7d' ∧ c ≠ ':' := by
  refine ⟨?_, ?_, ?_, ?_, ?_, ?_, ?_, ?_, ?_, ?_, ?_⟩ <;>
    (intro he; rw [he] at h; revert h; decide)

/-- Parsing the rendering of a natural number (a digit head plus digit tail)
recovers the number. -/
theorem parseDigits_renderNat (n : Nat) (rest : Str) (hrest : headIsDigit rest = false) :
    ∃ d ds, renderNat n = d :: ds ∧ isDigitChar d = true ∧
      parseDigits (ds ++ rest) (d.toNat - 48) = (n, rest) := by
  obtain ⟨hdig, hne, hfold⟩ := renderNat_spec n
  cases hrn : renderNat n with
  | nil => exact absurd hrn hne
  | cons d ds =>
    have hd : isDigitChar d = true := hdig d (by rw [hrn]; exact List.mem_cons_self _ _)
    have hds : ∀ c ∈ ds, isDigitChar c = true := fun c hc =>
      hdig c (by rw [hrn]; exact List.mem_cons_of_mem _ hc)
    refine ⟨d, ds, rfl, hd, ?_⟩
    rw [parseDigits_append ds rest (d.toNat - 48) hds, parseDigits_stop rest _ hrest]
    have h0 : (renderNat n).foldl digitStep 0 = n := by
      have := hfold 0
      simpa using this
    rw [hrn] at h0
    simp only [List.foldl_cons] at h0
    have : digitStep 0 d = d.toNat - 48 := by simp [digitStep]
    rw [this] at h0
    rw [h0]

/-- Parsing a string body that starts with the closing quote yields the empty
content. -/
theorem parseStrBody_quote (x : Str) : parseStrBody ('"' :: x) = some ([], x) := by
  unfold parseStrBody; simp

/-- A hexadecimal digit character is never a newline. -/
theorem hexDigit_ne_newline (n : Nat) : hexDigit n ≠ '\n' := by
  unfold hexDigit
  split <;> decide

/-- Reading back a lowercase hexadecimal digit recovers its value. -/
theorem hexVal_hexDigit (n : Nat) (h : n < 16) : hexVal (hexDigit n) = some n := by
  interval_cases n <;> decide

/-- Parsing a string body that starts with a valid short escape sequence
prepends the unescaped character. -/
theorem parseStrBody_escaped (e d : Char) (hu : e ≠ 'u') (h : unescapeChar e = some d)
    (x : Str) :
    parseStrBody ('\\' :: e :: x) = (parseStrBody x).map fun p => (d :: p.1, p.2) := by
  conv_lhs => unfold parseStrBody
  rw [if_neg (by decide), if_pos rfl]
  show (if e = 'u' then
      match x with
      | h1 :: h2 :: h3 :: h4 :: tl3 =>
        match hexVal h1, hexVal h2, hexVal h3, hexVal h4 with
        | some a, some b, some c2, some d2 =>
          match parseStrBody tl3 with
          | none => none
          | some p => some (Char.ofNat (((a * 16 + b) * 16 + c2) * 16 + d2) :: p.1, p.2)
        | _, _, _, _ => none
      | _ => none
    else
      match unescapeChar e with
      | none => none
      | some d2 =>
        match parseStrBody x with
        | none => none
        | some p => some (d2 :: p.1, p.2))
    = (parseStrBody x).map fun p => (d :: p.1, p.2)
  rw [if_neg hu, h]
  cases hx : parseStrBody x with
  | none => simp
  | some p => simp

/-- Parsing a string body that starts with a `u00XX` escape prepends the
character with that code. -/
theorem parseStrBody_unicode (h1 h2 h3 h4 : Char) (v1 v2 v3 v4 : Nat)
    (e1 : hexVal h1 = some v1) (e2 : hexVal h2 = some v2)
    (e3 : hexVal h3 = some v3) (e4 : hexVal h4 = some v4) (x : Str) :
    parseStrBody ('\\' :: 'u' :: h1 :: h2 :: h3 :: h4 :: x)
      = (parseStrBody x).map fun p =>
          (Char.ofNat (((v1 * 16 + v2) * 16 + v3) * 16 + v4) :: p.1, p.2) := by
  conv_lhs => unfold parseStrBody
  rw [if_neg (by decide), if_pos rfl]
  show (match hexVal h1, hexVal h2, hexVal h3, hexVal h4 with
    | some a, some b, some c2, some d2 =>
      match parseStrBody x with
      | none => none
      | some p => some (Char.ofNat (((a * 16 + b) * 16 + c2) * 16 + d2) :: p.1, p.2)
    | _, _, _, _ => none)
    = (parseStrBody x).map fun p =>
        (Char.ofNat (((v1 * 16 + v2) * 16 + v3) * 16 + v4) :: p.1, p.2)
  rw [e1, e2, e3, e4]
  cases hx : parseStrBody x with
  | none => simp
  | some p => simp

/-- Parsing a string body that starts with an ordinary character prepends
it. -/
theorem parseStrBody_other (c : Char) (h1 : c ≠ '"') (h2 : c ≠ '\\') (x : Str) :
    parseStrBody (c :: x) = (parseStrBody x).map fun p => (c :: p.1, p.2) := by
  conv_lhs => unfold parseStrBody
  rw [if_neg h1, if_neg h2]
  cases hx : parseStrBody x with
  | none => simp [hx]
  | some p => simp [hx]

/-- Round trip for string bodies: parsing the escaped form recovers the
original characters and stops at the closing quote. -/
theorem parseStrBody_escape (s : Str) :
    ∀ rest : Str, parseStrBody (escapeStr s ++ '"' :: rest) = some (s, rest) := by
  induction s with
  | nil =>
    intro rest
    rw [escapeStr, List.nil_append, parseStrBody_quote]
  | cons c tl ih =>
    intro rest
    by_cases h1 : c = '"'
    · subst h1
      rw [escapeStr, show escapeChar '"' = ['\\', '"'] from rfl]
      simp only [List.cons_append, List.nil_append, List.append_assoc]
      rw [parseStrBody_escaped '"' '"' (by decide) (by decide), ih rest]
      rfl
    · by_cases h2 : c = '\\'
      · subst h2
        rw [escapeStr, show escapeChar '\\' = ['\\', '\\'] from rfl]
        simp only [List.cons_append, List.nil_append, List.append_assoc]
        rw [parseStrBody_escaped '\\' '\\' (by decide) (by decide), ih rest]
        rfl
      · by_cases h3 : c = '\x08'
        · subst h3
          rw [escapeStr, show escapeChar '\x08' = ['\\', 'b'] from rfl]
          simp only [List.cons_append, List.nil_append, List.append_assoc]
          rw [parseStrBody_escaped 'b' '\x08' (by decide) (by decide), ih rest]
          rfl
        · by_cases h4 : c = '\x0c'
          · subst h4
            rw [escapeStr, show escapeChar '\x0c' = ['\\', 'f'] from rfl]
            simp only [List.cons_append, List.nil_append, List.append_assoc]
            rw [parseStrBody_escaped 'f' '\x0c' (by decide) (by decide), ih rest]
            rfl
          · by_cases h5 : c = '\n'
            · subst h5
              rw [escapeStr, show escapeChar '\n' = ['\\', 'n'] from rfl]
              simp only [List.cons_append, List.nil_append, List.append_assoc]
              rw [parseStrBody_escaped 'n' '\n' (by decide) (by decide), ih rest]
              rfl
            · by_cases h6 : c = '\r'
              · subst h6
                rw [escapeStr, show escapeChar '\r' = ['\\', 'r'] from rfl]
                simp only [List.cons_append, List.nil_append, List.append_assoc]
                rw [parseStrBody_escaped 'r' '\r' (by decide) (by decide), ih rest]
                rfl
              · by_cases h7 : c = '\t'
                · subst h7
                  rw [escapeStr, show escapeChar '\t' = ['\\', 't'] from rfl]
                  simp only [List.cons_append, List.nil_append, List.append_assoc]
                  rw [parseStrBody_escaped 't' '\t' (by decide) (by decide), ih rest]
                  rfl
                · by_cases h8 : c.toNat < 32
                  · rw [escapeStr]
                    rw [show escapeChar c = ['\\', 'u', '0', '0',
                        hexDigit (c.toNat / 16), hexDigit (c.toNat % 16)] by
                      simp only [escapeChar, if_neg h1, if_neg h2, if_neg h3, if_neg h4,
                        if_neg h5, if_neg h6, if_neg h7, if_pos h8]]
                    simp only [List.cons_append, List.nil_append, List.append_assoc]
                    have hdiv : c.toNat / 16 < 16 := by omega
                    have hmod : c.toNat % 16 < 16 := by omega
                    rw [parseStrBody_unicode '0' '0' _ _ 0 0 (c.toNat / 16) (c.toNat % 16)
                      (by decide) (by decide) (hexVal_hexDigit _ hdiv)
                      (hexVal_hexDigit _ hmod), ih rest]
                    have hval : ((0 * 16 + 0) * 16 + c.toNat / 16) * 16 + c.toNat % 16
                        = c.toNat := by omega
                    rw [hval]
                    simp
                  · rw [escapeStr]
                    rw [show escapeChar c = [c] by
                      simp only [escapeChar, if_neg h1, if_neg h2, if_neg h3, if_neg h4,
                        if_neg h5, if_neg h6, if_neg h7, if_neg h8]]
                    simp only [List.cons_append, List.nil_append, List.append_assoc]
                    rw [parseStrBody_other c h1 h2, ih rest]
                    rfl

/-- Value-parser dispatch: literal `null`. -/
theorem parseVal_lit_null (fuel : Nat) (rest : Str) :
    parseVal (fuel + 1) ('n' :: 'u' :: 'l' :: 'l' :: rest) = some (.null, rest) := by
  simp [parseVal, List.isPrefixOf]

/-- Value-parser dispatch: literal `true`. -/
theorem parseVal_lit_true (fuel : Nat) (rest : Str) :
    parseVal (fuel + 1) ('t' :: 'r' :: 'u' :: 'e' :: rest) = some (.bool true, rest) := by
  simp [parseVal, List.isPrefixOf]

/-- Value-parser dispatch: literal `false`. -/
theorem parseVal_lit_false (fuel : Nat) (rest : Str) :
    parseVal (fuel + 1) ('f' :: 'a' :: 'l' :: 's' :: 'e' :: rest)
      = some (.bool false, rest) := by
  simp [parseVal, List.isPrefixOf]

/-- Value-parser dispatch: a rendered string literal. -/
theorem parseVal_lit_str (fuel : Nat) (s rest : Str) :
    parseVal (fuel + 1) ('"' :: (escapeStr s ++ '"' :: rest)) = some (.str s, rest) := by
  simp [parseVal, parseStrBody_escape s rest]

/-- Value-parser dispatch: the empty array. -/
theorem parseVal_arr_empty (fuel : Nat) (rest : Str) :
    parseVal (fuel + 1) ('[' :: ']' :: rest) = some (.arr .nil, rest) := by
  simp [parseVal]

/-- Value-parser dispatch: a non-empty array defers to the element parser. -/
theorem parseVal_arr_cons (fuel : Nat) (d : Char) (hd : d ≠ ']') (r : Str) :
    parseVal (fuel + 1) ('[' :: d :: r)
      = (match parseElems fuel (d :: r) with
         | none => none
         | some p => some (.arr p.1, p.2)) := by
  simp [parseVal, hd]

/-- Value-parser dispatch: the empty object. -/
theorem parseVal_obj_empty (fuel : Nat) (rest : Str) :
    parseVal (fuel + 1) ('\x7b' :: '\x7d' :: rest) = some (.obj .nil, rest) := by
  simp [parseVal]

/-- Value-parser dispatch: a non-empty object defers to the member parser. -/
theorem parseVal_obj_cons (fuel : Nat) (d : Char) (hd : d ≠ '\x7d') (r : Str) :
    parseVal (fuel + 1) ('\x7b' :: d :: r)
      = (match parseMembers fuel (d :: r) with
         | none => none
         | some p => some (.obj p.1, p.2)) := by
  simp [parseVal, hd]

/-- Value-parser dispatch: a digit head starts an unsigned number. -/
theorem parseVal_digit (fuel : Nat) (c : Char) (hc : isDigitChar c = true) (r : Str) :
    parseVal (fuel + 1) (c :: r)
      = some (.num ((parseDigits r (c.toNat - 48)).1 : Int),
              (parseDigits r (c.toNat - 48)).2) := by
  obtain ⟨h1, h2, h3, h4, h5, h6, h7, _⟩ := digit_char_ne c hc
  simp only [parseVal]
  rw [if_neg h1, if_neg h2, if_neg h3, if_neg h4, if_neg h5, if_neg h6, if_neg h7,
    if_pos hc]

/-- Value-parser dispatch: a minus sign followed by a digit starts a negative
number. -/
theorem parseVal_dash (fuel : Nat) (d : Char) (hd : isDigitChar d = true) (r : Str) :
    parseVal (fuel + 1) ('-' :: d :: r)
      = some (.num (-((parseDigits r (d.toNat - 48)).1 : Int)),
              (parseDigits r (d.toNat - 48)).2) := by
  simp [parseVal, hd]

/-- Value-parser round trip for rendered integers. -/
theorem parseVal_renderInt (fuel : Nat) (i : Int) (rest : Str)
    (hrest : headIsDigit rest = false) :
    parseVal (fuel + 1) (renderInt i ++ rest) = some (.num i, rest) := by
  by_cases hneg : i < 0
  · obtain ⟨d, ds, hrn, hd, hpd⟩ := parseDigits_renderNat i.natAbs rest hrest
    have hshape : renderInt i ++ rest = '-' :: d :: (ds ++ rest) := by
      simp [renderInt, if_pos hneg, hrn]
    rw [hshape, parseVal_dash fuel d hd, hpd]
    have hv : -((i.natAbs : Nat) : Int) = i := by omega
    rw [hv]
  · obtain ⟨d, ds, hrn, hd, hpd⟩ := parseDigits_renderNat i.natAbs rest hrest
    have hshape : renderInt i ++ rest = d :: (ds ++ rest) := by
      simp [renderInt, if_neg hneg, hrn]
    rw [hshape, parseVal_digit fuel d hd, hpd]
    have hv : ((i.natAbs : Nat) : Int) = i := by omega
    rw [hv]

/-- Every rendered JSON value is non-empty, and its head character is neither
a closing bracket nor a closing brace. -/
theorem renderJson_head (v : Json) :
    ∃ c cs, renderJson v = c :: cs ∧ c ≠ ']' ∧ c ≠ '\x7d' := by
  cases v with
  | null => exact ⟨'n', "ull".toList, by decide, by decide, by decide⟩
  | bool b =>
    cases b with
    | false => exact ⟨'f', "alse".toList, by decide, by decide, by decide⟩
    | true => exact ⟨'t', "rue".toList, by decide, by decide, by decide⟩
  | num i =>
    by_cases hneg : i < 0
    · refine ⟨'-', renderNat i.natAbs, ?_, by decide, by decide⟩
      simp [renderJson, renderInt, if_pos hneg]
    · obtain ⟨hdig, hne, _⟩ := renderNat_spec i.natAbs
      cases hrn : renderNat i.natAbs with
      | nil => exact absurd hrn hne
      | cons d ds =>
        have hd : isDigitChar d = true :=
          hdig d (by rw [hrn]; exact List.mem_cons_self _ _)
        obtain ⟨_, _, _, _, _, _, _, h8, _, h10, _⟩ := digit_char_ne d hd
        refine ⟨d, ds, ?_, h8, h10⟩
        simp [renderJson, renderInt, if_neg hneg, hrn]
  | str s =>
    exact ⟨'"', escapeStr s ++ ['"'], by simp [renderJson, renderStr], by decide, by decide⟩
  | arr es =>
    exact ⟨'[', renderJsonList es ++ [']'], by simp [renderJson], by decide, by decide⟩
  | obj ms =>
    exact ⟨'\x7b', renderJsonMembers ms ++ ['\x7d'], by simp [renderJson], by decide,
      by decide⟩

/-- A rendered non-empty member spine starts with a double quote. -/
theorem renderJsonMembers_cons_head (k : Str) (v : Json) (tl : JsonMembers) :
    ∃ cs, renderJsonMembers (.cons k v tl) = '"' :: cs := by
  cases tl with
  | nil =>
    exact ⟨escapeStr k ++ '"' :: ':' :: renderJson v,
      by simp [renderJsonMembers, renderStr]⟩
  | cons k2 v2 tl2 =>
    exact ⟨escapeStr k ++ '"' :: ':' :: (renderJson v ++ ',' ::
        renderJsonMembers (.cons k2 v2 tl2)),
      by simp [renderJsonMembers, renderStr]⟩

/-- A rendered integer is never empty. -/
theorem jsize_pos_int (i : Int) : 1 ≤ (renderInt i).length := by
  obtain ⟨_, hne, _⟩ := renderNat_spec i.natAbs
  cases h : renderNat i.natAbs with
  | nil => exact absurd h hne
  | cons d ds =>
    by_cases hneg : i < 0
    · simp [renderInt, if_pos hneg, h]
    · simp [renderInt, if_neg hneg, h]

mutual

/-- The parser fuel budget of a value is bounded by its rendering length. -/
theorem jsize_le_render : ∀ v : Json, jsize v ≤ (renderJson v).length
  | .null => by simp [jsize, renderJson]
  | .bool b => by cases b <;> simp [jsize, renderJson]
  | .num i => by
    have h := jsize_pos_int i
    simpa [jsize, renderJson] using h
  | .str s => by simp [jsize, renderJson, renderStr]
  | .arr es => by
    have h := jsizeL_le_render es
    have hr : renderJson (.arr es) = '[' :: renderJsonList es ++ [']'] := by
      simp [renderJson]
    rw [hr]
    simp only [jsize, List.length_cons, List.length_append, List.length_singleton]
    omega
  | .obj ms => by
    have h := jsizeM_le_render ms
    have hr : renderJson (.obj ms) = '\x7b' :: renderJsonMembers ms ++ ['\x7d'] := by
      simp [renderJson]
    rw [hr]
    simp only [jsize, List.length_cons, List.length_append, List.length_singleton]
    omega

/-- The fuel budget of an array spine is bounded by its rendering length plus
one. -/
theorem jsizeL_le_render : ∀ es : JsonList, jsizeL es ≤ (renderJsonList es).length + 1
  | .nil => by simp [jsizeL]
  | .cons e tl => by
    have h1 := jsize_le_render e
    have h2 := jsizeL_le_render tl
    cases tl with
    | nil =>
      have hr : renderJsonList (.cons e .nil) = renderJson e := by
        simp [renderJsonList]
      rw [hr]
      simp only [jsizeL]
      omega
    | cons e2 tl2 =>
      have hr : renderJsonList (.cons e (.cons e2 tl2))
          = renderJson e ++ ',' :: renderJsonList (.cons e2 tl2) := by
        simp [renderJsonList]
      rw [hr]
      simp only [jsizeL, List.length_append, List.length_cons]
      simp only [jsizeL] at h2
      omega

/-- The fuel budget of a member spine is bounded by its rendering length plus
one. -/
theorem jsizeM_le_render : ∀ ms : JsonMembers, jsizeM ms ≤ (renderJsonMembers ms).length + 1
  | .nil => by simp [jsizeM]
  | .cons k v tl => by
    have h1 := jsize_le_render v
    have h2 := jsizeM_le_render tl
    cases tl with
    | nil =>
      have hr : renderJsonMembers (.cons k v .nil) = renderStr k ++ ':' :: renderJson v := by
        simp [renderJsonMembers]
      rw [hr]
      simp only [jsizeM, List.length_append, List.length_cons]
      omega
    | cons k2 v2 tl2 =>
      have hr : renderJsonMembers (.cons k v (.cons k2 v2 tl2))
          = renderStr k ++ ':' :: renderJson v ++ ',' :: renderJsonMembers (.cons k2 v2 tl2) := by
        simp [renderJsonMembers]
      rw [hr]
      simp only [jsizeM, List.length_append, List.length_cons]
      simp only [jsizeM] at h2
      omega

end

/-- The head-digit test on a cons cell inspects only the head. -/
theorem headIsDigit_cons (c : Char) (r : Str) : headIsDigit (c :: r) = isDigitChar c := rfl

/-- Every value needs at least one unit of fuel. -/
theorem jsize_pos (v : Json) : 1 ≤ jsize v := by
  cases v <;> simp [jsize]

/-- A non-empty array spine needs at least one unit of fuel. -/
theorem jsizeL_pos (es : JsonList) (h : es ≠ .nil) : 1 ≤ jsizeL es := by
  cases es with
  | nil => exact absurd rfl h
  | cons e tl =>
    have := jsize_pos e
    simp only [jsizeL]
    omega

/-- A non-empty member spine needs at least one unit of fuel. -/
theorem jsizeM_pos (ms : JsonMembers) (h : ms ≠ .nil) : 1 ≤ jsizeM ms := by
  cases ms with
  | nil => exact absurd rfl h
  | cons k v tl =>
    have := jsize_pos v
    simp only [jsizeM]
    omega

/-- Canonical-JSON round trip: with enough fuel, parsing a rendered value
(or non-empty spine) recovers it exactly and leaves the rest of the input
untouched. -/
theorem roundtrip (fuel : Nat) :
    (∀ (v : Json) (rest : Str), jsize v ≤ fuel → headIsDigit rest = false →
      parseVal fuel (renderJson v ++ rest) = some (v, rest)) ∧
    (∀ (es : JsonList) (rest : Str), es ≠ .nil → jsizeL es ≤ fuel →
      parseElems fuel (renderJsonList es ++ ']' :: rest) = some (es, rest)) ∧
    (∀ (ms : JsonMembers) (rest : Str), ms ≠ .nil → jsizeM ms ≤ fuel →
      parseMembers fuel (renderJsonMembers ms ++ '\x7d' :: rest) = some (ms, rest)) := by
  induction fuel with
  | zero =>
    refine ⟨?_, ?_, ?_⟩
    · intro v rest hsz _
      exact absurd hsz (by have := jsize_pos v; omega)
    · intro es rest hne hsz
      exact absurd hsz (by have := jsizeL_pos es hne; omega)
    · intro ms rest hne hsz
      exact absurd hsz (by have := jsizeM_pos ms hne; omega)
  | succ fuel ih =>
    obtain ⟨ihV, ihE, ihM⟩ := ih
    refine ⟨?_, ?_, ?_⟩
    · -- values
      intro v rest hsz hrest
      cases v with
      | null =>
        rw [show renderJson Json.null = ['n', 'u', 'l', 'l'] by decide]
        simp only [List.cons_append, List.nil_append]
        exact parseVal_lit_null fuel rest
      | bool b =>
        cases b with
        | true =>
          rw [show renderJson (Json.bool true) = ['t', 'r', 'u', 'e'] by decide]
          simp only [List.cons_append, List.nil_append]
          exact parseVal_lit_true fuel rest
        | false =>
          rw [show renderJson (Json.bool false) = ['f', 'a', 'l', 's', 'e'] by decide]
          simp only [List.cons_append, List.nil_append]
          exact parseVal_lit_false fuel rest
      | num i =>
        rw [show renderJson (Json.num i) = renderInt i by simp [renderJson]]
        exact parseVal_renderInt fuel i rest hrest
      | str s =>
        rw [show renderJson (Json.str s) ++ rest
            = '"' :: (escapeStr s ++ '"' :: rest) by
          simp [renderJson, renderStr]]
        exact parseVal_lit_str fuel s rest
      | arr es =>
        cases es with
        | nil =>
          rw [show renderJson (Json.arr .nil) = ['[', ']'] by decide]
          simp only [List.cons_append, List.nil_append]
          exact parseVal_arr_empty fuel rest
        | cons e tl =>
          obtain ⟨c, cs, hce, hcne, _⟩ := renderJson_head e
          have hlist : ∃ ys, renderJsonList (.cons e tl) = c :: ys := by
            cases tl with
            | nil => exact ⟨cs, by simp [renderJsonList, hce]⟩
            | cons e2 tl2 =>
              exact ⟨cs ++ ',' :: renderJsonList (.cons e2 tl2),
                by simp [renderJsonList, hce]⟩
          obtain ⟨ys, hys⟩ := hlist
          have hshape : renderJson (Json.arr (.cons e tl)) ++ rest
              = '[' :: c :: (ys ++ ']' :: rest) := by
            simp [renderJson, hys, List.append_assoc]
          rw [hshape, parseVal_arr_cons fuel c hcne]
          have harg : c :: (ys ++ ']' :: rest)
              = renderJsonList (.cons e tl) ++ ']' :: rest := by
            simp [hys]
          rw [harg, ihE (.cons e tl) rest (by intro h; cases h)
            (by simp only [jsize] at hsz; omega)]
      | obj ms =>
        cases ms with
        | nil =>
          rw [show renderJson (Json.obj .nil) = ['\x7b', '\x7d'] by decide]
          simp only [List.cons_append, List.nil_append]
          exact parseVal_obj_empty fuel rest
        | cons k v tl =>
          obtain ⟨cs, hcs⟩ := renderJsonMembers_cons_head k v tl
          have hshape : renderJson (Json.obj (.cons k v tl)) ++ rest
              = '\x7b' :: '"' :: (cs ++ '\x7d' :: rest) := by
            simp [renderJson, hcs, List.append_assoc]
          rw [hshape, parseVal_obj_cons fuel '"' (by decide)]
          have harg : '"' :: (cs ++ '\x7d' :: rest)
              = renderJsonMembers (.cons k v tl) ++ '\x7d' :: rest := by
            simp [hcs]
          rw [harg, ihM (.cons k v tl) rest (by intro h; cases h)
            (by simp only [jsize] at hsz; omega)]
    · -- array elements
      intro es rest hne hsz
      cases es with
      | nil => exact absurd rfl hne
      | cons e tl =>
        simp only [jsizeL] at hsz
        cases tl with
        | nil =>
          have hshape : renderJsonList (.cons e .nil) ++ ']' :: rest
              = renderJson e ++ ']' :: rest := by
            simp [renderJsonList]
          rw [hshape]
          simp only [parseElems]
          rw [ihV e (']' :: rest) (by omega) (by rw [headIsDigit_cons]; decide)]
          simp
        | cons e2 tl2 =>
          have hshape : renderJsonList (.cons e (.cons e2 tl2)) ++ ']' :: rest
              = renderJson e ++ ',' :: (renderJsonList (.cons e2 tl2) ++ ']' :: rest) := by
            simp [renderJsonList, List.append_assoc]
          rw [hshape]
          simp only [parseElems]
          rw [ihV e (',' :: (renderJsonList (.cons e2 tl2) ++ ']' :: rest)) (by omega)
            (by rw [headIsDigit_cons]; decide)]
          have htl : parseElems fuel (renderJsonList (.cons e2 tl2) ++ ']' :: rest)
              = some (.cons e2 tl2, rest) := by
            apply ihE (.cons e2 tl2) rest (by intro h; cases h)
            simp only [jsizeL] at hsz ⊢
            omega
          simp only [htl]
          simp
    · -- object members
      intro ms rest hne hsz
      cases ms with
      | nil => exact absurd rfl hne
      | cons k v tl =>
        simp only [jsizeM] at hsz
        cases tl with
        | nil =>
          have hshape : renderJsonMembers (.cons k v .nil) ++ '\x7d' :: rest
              = '"' :: (escapeStr k ++ '"' :: (':' :: (renderJson v ++ '\x7d' :: rest))) := by
            simp [renderJsonMembers, renderStr, List.append_assoc]
          rw [hshape]
          simp only [parseMembers]
          rw [parseStrBody_escape k (':' :: (renderJson v ++ '\x7d' :: rest))]
          simp only [reduceIte]
          show (match parseVal fuel (renderJson v ++ '\x7d' :: rest) with
            | none => none
            | some (v2, r4) =>
              match r4 with
              | [] => none
              | e2 :: r5 =>
                if e2 = ',' then
                  match parseMembers fuel r5 with
                  | none => none
                  | some p => some (JsonMembers.cons k v2 p.1, p.2)
                else if e2 = '\x7d' then some (JsonMembers.cons k v2 JsonMembers.nil, r5)
                else none) = some (JsonMembers.cons k v JsonMembers.nil, rest)
          rw [ihV v ('\x7d' :: rest) (by omega) (by rw [headIsDigit_cons]; decide)]
          simp
        | cons k2 v2 tl2 =>
          have hshape : renderJsonMembers (.cons k v (.cons k2 v2 tl2)) ++ '\x7d' :: rest
              = '"' :: (escapeStr k ++ '"' :: (':' :: (renderJson v
                  ++ ',' :: (renderJsonMembers (.cons k2 v2 tl2) ++ '\x7d' :: rest)))) := by
            simp [renderJsonMembers, renderStr, List.append_assoc]
          rw [hshape]
          simp only [parseMembers]
          rw [parseStrBody_escape k (':' :: (renderJson v
            ++ ',' :: (renderJsonMembers (.cons k2 v2 tl2) ++ '\x7d' :: rest)))]
          simp only [reduceIte]
          show (match parseVal fuel (renderJson v
              ++ ',' :: (renderJsonMembers (.cons k2 v2 tl2) ++ '\x7d' :: rest)) with
            | none => none
            | some (vv, r4) =>
              match r4 with
              | [] => none
              | e2 :: r5 =>
                if e2 = ',' then
                  match parseMembers fuel r5 with
                  | none => none
                  | some p => some (JsonMembers.cons k vv p.1, p.2)
                else if e2 = '\x7d' then some (JsonMembers.cons k vv JsonMembers.nil, r5)
                else none)
            = some (JsonMembers.cons k v (JsonMembers.cons k2 v2 tl2), rest)
          rw [ihV v (',' :: (renderJsonMembers (.cons k2 v2 tl2) ++ '\x7d' :: rest))
            (by omega) (by rw [headIsDigit_cons]; decide)]
          have htl : parseMembers fuel (renderJsonMembers (.cons k2 v2 tl2) ++ '\x7d' :: rest)
              = some (.cons k2 v2 tl2, rest) := by
            apply ihM (.cons k2 v2 tl2) rest (by intro h; cases h)
            simp only [jsizeM] at hsz ⊢
            omega
          simp only [htl]
          simp

/-- Parsing the canonical rendering of any JSON value consumes the whole
input and recovers the value. -/
theorem parseJson_render (v : Json) : parseJson (renderJson v) = some v := by
  have h := (roundtrip ((renderJson v).length + 1)).1 v []
    (by have := jsize_le_render v; omega) rfl
  rw [List.append_nil] at h
  unfold parseJson
  rw [h]

/-- The member spine of a canonical tool-call body. -/
def callBodyMembers (name : Str) (args : JsonMembers) : JsonMembers :=
  .cons "name".toList (.str name) (.cons "arguments".toList (.obj args) .nil)

/-- Decoding the rendered canonical tool-call body recovers the tool name
and arguments exactly. -/
theorem decodeCall_render (name : Str) (args : JsonMembers) :
    decodeCall (renderJson (Json.obj (callBodyMembers name args)))
      = some (name, Json.obj args) := by
  unfold decodeCall
  rw [parseJson_render]
  show (match lookupKey "name".toList (callBodyMembers name args),
      lookupKey "arguments".toList (callBodyMembers name args) with
    | some (Json.str n), some (Json.obj a) => some (n, Json.obj a)
    | _, _ => none) = some (name, Json.obj args)
  have h1 : lookupKey "name".toList (callBodyMembers name args) = some (.str name) := by
    simp [lookupKey, callBodyMembers]
  have h2 : lookupKey "arguments".toList (callBodyMembers name args)
      = some (.obj args) := by
    simp only [lookupKey, callBodyMembers]
    rw [if_neg (by decide)]
    simp
  rw [h1, h2]

/-- Whitespace trimming fixes a string that starts and ends with
non-whitespace characters. -/
theorem trimStr_sandwich (a b : Char) (ha : isWSChar a = false)
    (hb : isWSChar b = false) (xs : Str) :
    trimStr (a :: (xs ++ [b])) = a :: (xs ++ [b]) := by
  unfold trimStr
  rw [List.dropWhile_cons, ha]
  simp only [Bool.false_eq_true, if_false, List.reverse_cons, List.reverse_append,
    List.reverse_cons, List.reverse_nil, List.nil_append, List.cons_append,
    List.dropWhile_cons, hb, Bool.false_eq_true, if_false]
  simp

/-- Trimming is the identity on a rendered JSON object. -/
theorem trimStr_renderJson_obj (ms : JsonMembers) :
    trimStr (renderJson (Json.obj ms)) = renderJson (Json.obj ms) := by
  have hshape : renderJson (Json.obj ms)
      = '\x7b' :: (renderJsonMembers ms ++ ['\x7d']) := by
    simp [renderJson]
  rw [hshape, trimStr_sandwich '\x7b' '\x7d' (by decide) (by decide)]

/-- Escaping one character never emits a newline. -/
theorem newline_notin_escapeChar (c : Char) : '\n' ∉ escapeChar c := by
  unfold escapeChar
  split_ifs with h1 h2 h3 h4 h5 h6 h7 h8
  · decide
  · decide
  · decide
  · decide
  · decide
  · decide
  · decide
  · intro hmem
    simp only [List.mem_cons, List.mem_singleton, List.not_mem_nil, or_false] at hmem
    rcases hmem with h | h | h | h | h | h
    · exact absurd h (by decide)
    · exact absurd h (by decide)
    · exact absurd h (by decide)
    · exact absurd h (by decide)
    · exact hexDigit_ne_newline _ h.symm
    · exact hexDigit_ne_newline _ h.symm
  · simp only [List.mem_singleton]
    exact fun hc => h5 hc.symm

/-- An escaped string contains no raw newline. -/
theorem newline_notin_escapeStr (s : Str) : '\n' ∉ escapeStr s := by
  induction s with
  | nil => simp [escapeStr]
  | cons c tl ih =>
    intro hmem
    rw [escapeStr] at hmem
    rcases List.mem_append.mp hmem with h | h
    · exact newline_notin_escapeChar c h
    · exact ih h

mutual

/-- A rendered JSON value contains no raw newline (strings escape them), so
one rendered value always fits on one line of a fence block. -/
theorem newline_notin_render : ∀ v : Json, '\n' ∉ renderJson v
  | .null => by decide
  | .bool b => by cases b <;> decide
  | .num i => by
    intro hmem
    obtain ⟨hdig, _, _⟩ := renderNat_spec i.natAbs
    simp only [renderJson, renderInt] at hmem
    by_cases hneg : i < 0
    · rw [if_pos hneg] at hmem
      rcases List.mem_cons.mp hmem with h | h
      · exact absurd h (by decide)
      · exact absurd (hdig _ h) (by decide)
    · rw [if_neg hneg] at hmem
      exact absurd (hdig _ hmem) (by decide)
  | .str s => by
    intro hmem
    simp only [renderJson, renderStr, List.cons_append] at hmem
    rcases List.mem_cons.mp hmem with h | h
    · exact absurd h (by decide)
    · rcases List.mem_append.mp h with h | h
      · exact newline_notin_escapeStr s h
      · exact absurd (List.mem_singleton.mp h) (by decide)
  | .arr es => by
    intro hmem
    simp only [renderJson] at hmem
    rcases List.mem_cons.mp hmem with h | h
    · exact absurd h (by decide)
    · rcases List.mem_append.mp h with h | h
      · exact newline_notin_renderList es h
      · exact absurd (List.mem_singleton.mp h) (by decide)
  | .obj ms => by
    intro hmem
    simp only [renderJson] at hmem
    rcases List.mem_cons.mp hmem with h | h
    · exact absurd h (by decide)
    · rcases List.mem_append.mp h with h | h
      · exact newline_notin_renderMembers ms h
      · exact absurd (List.mem_singleton.mp h) (by decide)

/-- A rendered array spine contains no raw newline. -/
theorem newline_notin_renderList : ∀ es : JsonList, '\n' ∉ renderJsonList es
  | .nil => by simp [renderJsonList]
  | .cons e tl => by
    intro hmem
    cases tl with
    | nil =>
      exact newline_notin_render e (by simpa [renderJsonList] using hmem)
    | cons e2 tl2 =>
      rw [show renderJsonList (.cons e (.cons e2 tl2))
          = renderJson e ++ ',' :: renderJsonList (.cons e2 tl2) by
        simp [renderJsonList]] at hmem
      rcases List.mem_append.mp hmem with h | h
      · exact newline_notin_render e h
      · rcases List.mem_cons.mp h with h | h
        · exact absurd h (by decide)
        · exact newline_notin_renderList (.cons e2 tl2) h

/-- A rendered member spine contains no raw newline. -/
theorem newline_notin_renderMembers : ∀ ms : JsonMembers, '\n' ∉ renderJsonMembers ms
  | .nil => by simp [renderJsonMembers]
  | .cons k v tl => by
    intro hmem
    have hstr : '\n' ∉ renderStr k := by
      intro h
      simp only [renderStr, List.cons_append] at h
      rcases List.mem_cons.mp h with h | h
      · exact absurd h (by decide)
      · rcases List.mem_append.mp h with h | h
        · exact newline_notin_escapeStr k h
        · exact absurd (List.mem_singleton.mp h) (by decide)
    cases tl with
    | nil =>
      rw [show renderJsonMembers (.cons k v .nil)
          = renderStr k ++ ':' :: renderJson v by simp [renderJsonMembers]] at hmem
      rcases List.mem_append.mp hmem with h | h
      · exact hstr h
      · rcases List.mem_cons.mp h with h | h
        · exact absurd h (by decide)
        · exact newline_notin_render v h
    | cons k2 v2 tl2 =>
      rw [show renderJsonMembers (.cons k v (.cons k2 v2 tl2))
          = renderStr k ++ ':' :: (renderJson v
              ++ ',' :: renderJsonMembers (.cons k2 v2 tl2)) by
        simp [renderJsonMembers]] at hmem
      rcases List.mem_append.mp hmem with h | h
      · exact hstr h
      · rcases List.mem_cons.mp h with h | h
        · exact absurd h (by decide)
        · rcases List.mem_append.mp h with h | h
          · exact newline_notin_render v h
          · rcases List.mem_cons.mp h with h | h
            · exact absurd h (by decide)
            · exact newline_notin_renderMembers (.cons k2 v2 tl2) h

end

/-- Modelled from the spec: a structured tool call extracted by the call
parser (spec section 3): generated id, tool name and JSON arguments. -/
structure ParsedToolCall where
  toolCallId : Str
  toolName : Str
  args : Json
deriving DecidableEq

/-- Modelled from the spec: the result of the call parser (spec section 3):
the ordered tool calls and the residual prose. -/
structure ParsedResponse where
  toolCalls : List ParsedToolCall
  textContent : Str
deriving DecidableEq

/-- Tool-call ids generated by the parser, stable per block position. -/
def mkCallId (k : Nat) : Str := "call_".toList ++ renderNat k

/-- Modelled from the spec: the extraction loop of the call parser (spec
section 4.4).  It repeatedly finds the next complete fence span; a span whose
body decodes becomes a tool call and is removed, a span that fails to decode
is kept verbatim in the text. -/
def extractLoop : Str → Nat → Nat → List ParsedToolCall × Str
  | t, _, 0 => ([], t)
  | t, k, fuel + 1 =>
    match findFenceSpan t with
    | none => ([], t)
    | some (i, e, inner) =>
      let pre := t.take i
      let spanText := (t.take e).drop i
      let rest := t.drop e
      let r := extractLoop rest (k + 1) fuel
      match decodeCall (trimStr inner) with
      | some nv => (⟨mkCallId k, nv.1, nv.2⟩ :: r.1, pre ++ r.2)
      | none => (r.1, pre ++ spanText ++ r.2)

/-- Modelled from the spec: `parseJsonFunctionCalls` (spec section 4.4) —
every successfully decoded fence becomes a tool call and is removed from the
text, which is then trimmed; with zero parsed fences the input is returned
unchanged. -/
def parseJsonFunctionCalls (fullText : Str) : ParsedResponse :=
  let r := extractLoop fullText 0 fullText.length
  if r.1.isEmpty then ⟨[], fullText⟩ else ⟨r.1, trimStr r.2⟩

/-- The tool calls that a well-separated stream of fences produces. -/
def callsOf : List (Str × Str) → Nat → List ParsedToolCall
  | [], _ => []
  | (_, b) :: tl, k =>
    match decodeCall (trimStr b) with
    | some nv => ⟨mkCallId k, nv.1, nv.2⟩ :: callsOf tl (k + 1)
    | none => callsOf tl (k + 1)

/-- The residual text of a well-separated stream of fences: separators stay,
decoded spans vanish, un-decodable spans stay verbatim. -/
def residualOf : List (Str × Str) → Str → Str
  | [], t => t
  | (s, b) :: tl, t =>
    s ++ (match decodeCall (trimStr b) with
          | some _ => []
          | none => encFence b) ++ residualOf tl t

/-- Without any backquote there is no fence span. -/
theorem findFenceSpan_no_backquote (t : Str) (h : backquote ∉ t) :
    findFenceSpan t = none := by
  unfold findFenceSpan
  rw [openMarker_eq, findSubstr_none_of_head_notMem backquote _ t h]

/-- Running the extraction loop over a well-separated stream produces exactly
the calls of the decodable bodies (in order) and keeps separators plus
un-decodable spans verbatim. -/
theorem extractLoop_structured :
    ∀ (ps : List (Str × Str)) (k fuel : Nat) (t : Str),
      (∀ p ∈ ps, backquote ∉ p.1 ∧ '\n' ∉ p.2) → backquote ∉ t →
      (buildText ps t).length ≤ fuel →
      extractLoop (buildText ps t) k fuel = (callsOf ps k, residualOf ps t) := by
  intro ps
  induction ps with
  | nil =>
    intro k fuel t _ ht hlen
    rw [buildText_nil]
    cases fuel with
    | zero => simp [extractLoop, callsOf, residualOf]
    | succ f =>
      simp [extractLoop, findFenceSpan_no_backquote t ht, callsOf, residualOf]
  | cons p tl ih =>
    intro k fuel t hgood ht hlen
    obtain ⟨s, b⟩ := p
    have hp := hgood (s, b) (List.mem_cons_self _ _)
    have htl : ∀ q ∈ tl, backquote ∉ q.1 ∧ '\n' ∉ q.2 := fun q hq =>
      hgood q (List.mem_cons_of_mem _ hq)
    have hom : openMarker.length = 13 := by decide
    have hcm : closeMarker.length = 4 := by decide
    have hlen2 : (buildText ((s, b) :: tl) t).length
        = s.length + openMarker.length + b.length + closeMarker.length
          + (buildText tl t).length := by
      rw [buildText_cons]
      simp only [List.length_append, encFence]
      omega
    cases fuel with
    | zero => omega
    | succ f =>
      rw [buildText_cons]
      have hspan := findFenceSpan_structured s b (buildText tl t) hp.1 hp.2
      have hel : (s ++ encFence b).length
          = s.length + openMarker.length + b.length + closeMarker.length := by
        simp only [List.length_append, encFence]
        omega
      have htake1 : (s ++ encFence b ++ buildText tl t).take s.length = s := by
        rw [List.append_assoc]
        exact List.take_left' rfl
      have htake2 : ((s ++ encFence b ++ buildText tl t).take
            (s.length + openMarker.length + b.length + closeMarker.length)).drop s.length
          = encFence b := by
        rw [List.take_left' hel, List.drop_left]
      have hdrop : (s ++ encFence b ++ buildText tl t).drop
            (s.length + openMarker.length + b.length + closeMarker.length)
          = buildText tl t := List.drop_left' hel
      have hih : extractLoop (buildText tl t) (k + 1) f
          = (callsOf tl (k + 1), residualOf tl t) := by
        apply ih (k + 1) f t htl ht
        omega
      simp only [extractLoop, hspan]
      rw [htake1, htake2, hdrop, hih]
      cases hdec : decodeCall (trimStr b) with
      | none => simp [callsOf, residualOf, hdec, List.append_assoc]
      | some nv => simp [callsOf, residualOf, hdec]

/-- Claim C4: a string with no complete fence span parses to an empty
tool-call list and is returned as `textContent` unchanged. -/
theorem no_fence_identity (fullText : Str) (h : findFenceSpan fullText = none) :
    parseJsonFunctionCalls fullText = ⟨[], fullText⟩ := by
  unfold parseJsonFunctionCalls
  cases hl : fullText.length with
  | zero => simp [hl, extractLoop]
  | succ n => simp [hl, extractLoop, h]

/-- Witness for claim C4's theorem at the spec's concrete scenario. -/
theorem no_fence_identity_witness :
    parseJsonFunctionCalls "Hello world".toList = ⟨[], "Hello world".toList⟩ :=
  no_fence_identity "Hello world".toList (by decide)

/-- Modelled from the spec: the hypothetical section 6 encoder — opening
marker line, one JSON line `\x7b"name", "arguments"\x7d`, closing marker
line. -/
def encodeToolCall (name : Str) (args : JsonMembers) : Str :=
  encFence (renderJson (Json.obj (callBodyMembers name args)))

/-- Claim C5: round trip through the wire convention.  Encoding any tool
name and any JSON-object argument value as a section 6 fence block and
parsing it back yields exactly one tool call carrying that name and those
arguments, with no residual text. -/
theorem encode_parse_roundtrip (name : Str) (args : JsonMembers) :
    (parseJsonFunctionCalls (encodeToolCall name args)).toolCalls.map
        (fun c => (c.toolName, c.args)) = [(name, Json.obj args)]
    ∧ (parseJsonFunctionCalls (encodeToolCall name args)).textContent = [] := by
  have henc : encodeToolCall name args
      = buildText [([], renderJson (Json.obj (callBodyMembers name args)))] [] := by
    simp [encodeToolCall, buildText, encFence]
  have hml := extractLoop_structured
    [([], renderJson (Json.obj (callBodyMembers name args)))] 0
    (buildText [([], renderJson (Json.obj (callBodyMembers name args)))] []).length []
    (by
      intro p hp
      rcases List.mem_singleton.mp hp with rfl
      exact ⟨by simp, newline_notin_render _⟩)
    (by simp)
    (le_refl _)
  have hdec : decodeCall (trimStr (renderJson (Json.obj (callBodyMembers name args))))
      = some (name, Json.obj args) := by
    rw [trimStr_renderJson_obj, decodeCall_render]
  have hc : callsOf [([], renderJson (Json.obj (callBodyMembers name args)))] 0
      = [⟨mkCallId 0, name, Json.obj args⟩] := by
    simp [callsOf, hdec]
  have hr : residualOf [([], renderJson (Json.obj (callBodyMembers name args)))] []
      = [] := by
    simp [residualOf, hdec]
  unfold parseJsonFunctionCalls
  rw [henc, hml, hc, hr]
  simp [trimStr]

/-- An infix of a list is an infix of any left-extension of it. -/
theorem infix_of_append_left (l x y : Str) (h : l <:+: y) : l <:+: x ++ y := by
  obtain ⟨u, w, he⟩ := h
  exact ⟨x ++ u, w, by rw [← he]; simp [List.append_assoc]⟩

/-- Transport of the infix relation through reversal. -/
theorem infix_reverse (l t : Str) (h : l <:+: t) : l.reverse <:+: t.reverse := by
  obtain ⟨u, w, he⟩ := h
  exact ⟨w.reverse, u.reverse, by rw [← he]; simp⟩

/-- An infix block that starts with a non-whitespace character survives
left-trimming. -/
theorem infix_dropWhile (l : Str) (c : Char) (cs : Str) (hl : l = c :: cs)
    (hw : isWSChar c = false) :
    ∀ t : Str, l <:+: t → l <:+: t.dropWhile isWSChar := by
  intro t
  induction t with
  | nil =>
    intro h
    obtain ⟨u, w, he⟩ := h
    rcases List.append_eq_nil.mp he with ⟨h1, -⟩
    rcases List.append_eq_nil.mp h1 with ⟨-, h3⟩
    rw [hl] at h3
    cases h3
  | cons x tl ih =>
    intro h
    rw [List.dropWhile_cons]
    by_cases hx : isWSChar x = true
    · rw [hx]
      simp only [if_true]
      apply ih
      obtain ⟨u, w, he⟩ := h
      cases u with
      | nil =>
        exfalso
        simp only [List.nil_append] at he
        rw [hl] at he
        simp only [List.cons_append] at he
        injection he with he1 _
        rw [he1] at hw
        rw [hw] at hx
        cases hx
      | cons u0 u' =>
        simp only [List.cons_append, List.cons.injEq] at he
        exact ⟨u', w, he.2⟩
    · rw [Bool.not_eq_true] at hx
      rw [hx]
      simpa using h

/-- An infix block with non-whitespace first and last characters survives
whitespace trimming. -/
theorem infix_trimStr (l t : Str) (hlt : l <:+: t)
    (c1 : Char) (cs1 : Str) (h1 : l = c1 :: cs1) (hw1 : isWSChar c1 = false)
    (c2 : Char) (cs2 : Str) (h2 : l.reverse = c2 :: cs2) (hw2 : isWSChar c2 = false) :
    l <:+: trimStr t := by
  unfold trimStr
  have s1 := infix_dropWhile l c1 cs1 h1 hw1 t hlt
  have s2 := infix_reverse l _ s1
  have s3 := infix_dropWhile l.reverse c2 cs2 h2 hw2 _ s2
  have s4 := infix_reverse l.reverse _ s3
  simpa using s4

/-- A fence block starts with a backquote. -/
theorem encFence_head (b : Str) :
    encFence b = backquote :: ("``tool_call\n".toList ++ b ++ closeMarker) := by
  rw [encFence, openMarker_eq]
  simp [List.append_assoc]

/-- A fence block ends with a backquote: its reversal starts with one. -/
theorem encFence_reverse_head (b : Str) :
    (encFence b).reverse
      = backquote :: ("``\n".toList ++ (b.reverse ++ openMarker.reverse)) := by
  have hcm : closeMarker.reverse = backquote :: "``\n".toList := by decide
  rw [encFence]
  simp only [List.reverse_append, hcm]
  simp [List.append_assoc]

/-- A failed span's raw text sits verbatim inside the residual text. -/
theorem residualOf_infix :
    ∀ (ps : List (Str × Str)) (t : Str) (p : Str × Str), p ∈ ps →
      decodeCall (trimStr p.2) = none → encFence p.2 <:+: residualOf ps t := by
  intro ps
  induction ps with
  | nil => intro t p hp; cases hp
  | cons q tl ih =>
    intro t p hp hdec
    obtain ⟨s, b⟩ := q
    rcases List.mem_cons.mp hp with rfl | hmem
    · have hdec2 : decodeCall (trimStr b) = none := hdec
      show encFence b <:+: residualOf ((s, b) :: tl) t
      rw [show residualOf ((s, b) :: tl) t
          = s ++ (encFence b ++ residualOf tl t) by
        simp [residualOf, hdec2]]
      exact ⟨s, residualOf tl t, by simp [List.append_assoc]⟩
    · have hrec := ih t p hmem hdec
      rw [show residualOf ((s, b) :: tl) t
          = (s ++ (match decodeCall (trimStr b) with
              | some _ => [] | none => encFence b)) ++ residualOf tl t by
        simp [residualOf, List.append_assoc]]
      exact infix_of_append_left _ _ _ hrec

/-- Every span's raw text sits verbatim inside the stream it came from. -/
theorem buildText_infix :
    ∀ (ps : List (Str × Str)) (t : Str) (p : Str × Str), p ∈ ps →
      encFence p.2 <:+: buildText ps t := by
  intro ps
  induction ps with
  | nil => intro t p hp; cases hp
  | cons q tl ih =>
    intro t p hp
    obtain ⟨s, b⟩ := q
    rcases List.mem_cons.mp hp with rfl | hmem
    · show encFence b <:+: buildText ((s, b) :: tl) t
      rw [buildText_cons]
      exact ⟨s, buildText tl t, by simp [List.append_assoc]⟩
    · rw [buildText_cons]
      have hrec := ih t p hmem
      rw [show s ++ encFence b ++ buildText tl t
          = (s ++ encFence b) ++ buildText tl t by simp [List.append_assoc]]
      exact infix_of_append_left _ _ _ hrec

/-- The number of calls produced equals the number of decodable spans. -/
theorem callsOf_length :
    ∀ (ps : List (Str × Str)) (k : Nat),
      (callsOf ps k).length
        = (ps.filter fun p => (decodeCall (trimStr p.2)).isSome).length := by
  intro ps
  induction ps with
  | nil => intro k; rfl
  | cons q tl ih =>
    intro k
    obtain ⟨s, b⟩ := q
    cases hdec : decodeCall (trimStr b) with
    | none => simp [callsOf, hdec, List.filter, ih]
    | some nv => simp [callsOf, hdec, List.filter, ih]

/-- Claim C2: in a well-separated stream, spans whose inner content fails to
JSON-decode produce no tool call (the tool-call count is exactly the number
of decodable spans) and their raw text is retained verbatim — as an infix —
inside the returned `textContent`, while parsing itself is a total function
that raises no exception. -/
theorem malformed_fence_retention (ps : List (Str × Str)) (t : Str)
    (hgood : ∀ p ∈ ps, backquote ∉ p.1 ∧ '\n' ∉ p.2) (ht : backquote ∉ t) :
    (parseJsonFunctionCalls (buildText ps t)).toolCalls.length
        = (ps.filter fun p => (decodeCall (trimStr p.2)).isSome).length
    ∧ ∀ p ∈ ps, decodeCall (trimStr p.2) = none →
        encFence p.2 <:+: (parseJsonFunctionCalls (buildText ps t)).textContent := by
  have hml := extractLoop_structured ps 0 (buildText ps t).length t hgood ht (le_refl _)
  unfold parseJsonFunctionCalls
  rw [hml]
  by_cases hemp : (callsOf ps 0).isEmpty
  · rw [if_pos hemp]
    constructor
    · have h0 : (callsOf ps 0).length = 0 := by
        rw [List.isEmpty_iff] at hemp
        simp [hemp]
      simp only [← callsOf_length ps 0, h0]
      rfl
    · intro p hp _
      exact buildText_infix ps t p hp
  · rw [if_neg hemp]
    constructor
    · exact callsOf_length ps 0
    · intro p hp hdec
      have hres := residualOf_infix ps t p hp hdec
      exact infix_trimStr _ _ hres backquote _ (encFence_head p.2) (by decide)
        backquote _ (encFence_reverse_head p.2) (by decide)

/-- Witness for claim C2's theorem on a concrete stream with one decodable
and one malformed fence. -/
theorem malformed_fence_retention_witness :
    (parseJsonFunctionCalls (buildText
        [("x".toList, "\x7b\"name\":\"t\",\"arguments\":\x7b\x7d\x7d".toList),
         ("y".toList, "oops".toList)] "z".toList)).toolCalls.length
      = ([("x".toList, "\x7b\"name\":\"t\",\"arguments\":\x7b\x7d\x7d".toList),
          ("y".toList, "oops".toList)].filter
            fun p => (decodeCall (trimStr p.2)).isSome).length
    ∧ ∀ p ∈ [("x".toList, "\x7b\"name\":\"t\",\"arguments\":\x7b\x7d\x7d".toList),
             ("y".toList, "oops".toList)],
        decodeCall (trimStr p.2) = none →
        encFence p.2 <:+: (parseJsonFunctionCalls (buildText
            [("x".toList, "\x7b\"name\":\"t\",\"arguments\":\x7b\x7d\x7d".toList),
             ("y".toList, "oops".toList)] "z".toList)).textContent :=
  malformed_fence_retention _ _ (by decide) (by decide)

/-- Modelled from the spec: a tool description offered to the model (spec
section 3). -/
structure ToolDefinition where
  name : Str
  description : Str
  parameters : Json

/-- One rendered catalog entry: name, description and serialized schema. -/
def toolEntry (t : ToolDefinition) : Str :=
  "- ".toList ++ t.name ++ ": ".toList ++ t.description
    ++ "\n  Parameters: ".toList ++ renderJson t.parameters ++ ['\n']

/-- The heading of the appended tool section. -/
def toolSectionHeader : Str := "\n\n# Available Tools\n\n".toList

/-- The instruction block teaching the model the exact fence syntax. -/
def fenceSyntaxInstructions : Str :=
  "\nTo call a tool, emit a fenced block:\n".toList ++ openMarker
    ++ "\x7b\"name\": \"tool_name\", \"arguments\": \x7b ... \x7d\x7d".toList
    ++ closeMarker ++ ['\n']

/-- Modelled from the spec: `buildJsonToolSystemPrompt` (spec section 4.2) —
with an empty catalog the existing prompt passes through unchanged, otherwise
the prompt is followed by the heading, one entry per tool in catalog order,
and the fence-syntax instructions. -/
def buildJsonToolSystemPrompt (existingPrompt : Option Str)
    (tools : List ToolDefinition) : Str :=
  match tools with
  | [] => existingPrompt.getD []
  | _ =>
    (match existingPrompt with
     | some p => p ++ "\n\n".toList
     | none => []) ++ toolSectionHeader ++ (tools.map toolEntry).flatten
      ++ fenceSyntaxInstructions

/-- Claim C6: with an empty tool catalog the prompt builder is the identity —
it returns the existing prompt byte-for-byte, or the empty string when no
prompt was given, and appends no tool section. -/
theorem toolless_prompt_identity :
    (∀ p : Str, buildJsonToolSystemPrompt (some p) [] = p) ∧
    buildJsonToolSystemPrompt none [] = [] :=
  ⟨fun _ => rfl, rfl⟩

/-- Modelled from the spec: a tool execution outcome (spec section 3). -/
structure ToolResult where
  toolCallId : Str
  toolName : Str
  result : Json

/-- The member spine of one rendered tool-result body. -/
def resultBodyMembers (r : ToolResult) : JsonMembers :=
  .cons "toolCallId".toList (.str r.toolCallId)
    (.cons "toolName".toList (.str r.toolName)
      (.cons "result".toList r.result .nil))

/-- Modelled from the spec: one rendered result block — result-fence marker,
JSON-encoded `\x7b toolCallId, toolName, result \x7d` body, closing marker
(spec section 4.5). -/
def formatToolResult (r : ToolResult) : Str :=
  resultOpenMarker ++ renderJson (Json.obj (resultBodyMembers r)) ++ closeMarker

/-- Modelled from the spec: `formatToolResults` (spec section 4.5) — one
block per result in input order, separated by a blank line; empty input gives
the empty string. -/
def formatToolResults : List ToolResult → Str
  | [] => []
  | [r] => formatToolResult r
  | r :: rs => formatToolResult r ++ "\n\n".toList ++ formatToolResults rs

/-- A character that JSON string encoding copies verbatim: not a quote, not
a backslash, and not a control character below U+0020. -/
def jsonPlainChar (c : Char) : Bool :=
  if c = '"' then false
  else if c = '\\' then false
  else if c.toNat < 32 then false
  else true

/-- Unpacking the plain-character test. -/
theorem jsonPlainChar_spec (c : Char) (h : jsonPlainChar c = true) :
    c ≠ '"' ∧ c ≠ '\\' ∧ ¬ c.toNat < 32 := by
  unfold jsonPlainChar at h
  split_ifs at h with h1 h2 h3
  exact ⟨h1, h2, h3⟩

/-- Escaping is the identity on strings of plain characters. -/
theorem escapeStr_eq_self (s : Str) (h : ∀ c ∈ s, jsonPlainChar c = true) :
    escapeStr s = s := by
  induction s with
  | nil => rfl
  | cons c tl ih =>
    obtain ⟨hc1, hc2, hc3⟩ := jsonPlainChar_spec c (h c (List.mem_cons_self _ _))
    have hn3 : c ≠ '\x08' := fun he => hc3 (by rw [he]; decide)
    have hn4 : c ≠ '\x0c' := fun he => hc3 (by rw [he]; decide)
    have hn5 : c ≠ '\n' := fun he => hc3 (by rw [he]; decide)
    have hn6 : c ≠ '\r' := fun he => hc3 (by rw [he]; decide)
    have hn7 : c ≠ '\t' := fun he => hc3 (by rw [he]; decide)
    rw [escapeStr]
    rw [show escapeChar c = [c] by
      simp [escapeChar, hc1, hc2, hc3, hn3, hn4, hn5, hn6, hn7]]
    rw [ih fun x hx => h x (List.mem_cons_of_mem _ hx)]
    rfl

/-- An infix of a list is an infix of any right-extension of it. -/
theorem infix_of_append_right (l x y : Str) (h : l <:+: x) : l <:+: x ++ y := by
  obtain ⟨u, w, he⟩ := h
  exact ⟨u, w ++ y, by rw [← he]; simp [List.append_assoc]⟩

/-- A plain tool name occurs verbatim in its block. -/
theorem toolName_infix_block (r : ToolResult)
    (h : ∀ c ∈ r.toolName, jsonPlainChar c = true) :
    r.toolName <:+: formatToolResult r := by
  have hname : renderJson (Json.str r.toolName)
      = '"' :: (r.toolName ++ ['"']) := by
    simp [renderJson, renderStr, escapeStr_eq_self r.toolName h]
  have h1 : r.toolName <:+: renderJson (Json.str r.toolName) :=
    ⟨['"'], ['"'], by rw [hname]; simp⟩
  have h2 : renderJson (Json.str r.toolName)
      <:+: renderJsonMembers (resultBodyMembers r) := by
    have hshape : renderJsonMembers (resultBodyMembers r)
        = (renderStr "toolCallId".toList ++ ':' :: renderJson (Json.str r.toolCallId)
            ++ [','] ++ renderStr "toolName".toList ++ [':'])
          ++ renderJson (Json.str r.toolName)
          ++ (',' :: renderJsonMembers (.cons "result".toList r.result .nil)) := by
      simp [resultBodyMembers, renderJsonMembers, List.append_assoc]
    exact ⟨_, _, hshape.symm⟩
  have h3 : renderJsonMembers (resultBodyMembers r)
      <:+: formatToolResult r := by
    have hshape : formatToolResult r
        = (resultOpenMarker ++ ['\x7b']) ++ renderJsonMembers (resultBodyMembers r)
          ++ ('\x7d' :: closeMarker) := by
      simp [formatToolResult, renderJson, List.append_assoc]
    exact ⟨_, _, hshape.symm⟩
  exact (h1.trans h2).trans h3

/-- A block is an infix of the formatted output of any list containing its
result. -/
theorem block_infix_output :
    ∀ (rs : List ToolResult) (r : ToolResult), r ∈ rs →
      formatToolResult r <:+: formatToolResults rs := by
  intro rs
  induction rs with
  | nil => intro r hr; cases hr
  | cons r0 tl ih =>
    intro r hr
    rcases List.mem_cons.mp hr with rfl | hmem
    · cases tl with
      | nil => exact ⟨[], [], by simp [formatToolResults]⟩
      | cons r1 tl2 =>
        rw [show formatToolResults (r :: r1 :: tl2)
            = formatToolResult r ++ ("\n\n".toList ++ formatToolResults (r1 :: tl2)) by
          simp [formatToolResults, List.append_assoc]]
        exact infix_of_append_right _ _ _ ⟨[], [], by simp⟩
    · cases tl with
      | nil => cases hmem
      | cons r1 tl2 =>
        rw [show formatToolResults (r0 :: r1 :: tl2)
            = (formatToolResult r0 ++ "\n\n".toList) ++ formatToolResults (r1 :: tl2) by
          simp [formatToolResults, List.append_assoc]]
        exact infix_of_append_left _ _ _ (ih r hmem)

/-- Counterexample to claim C8 as stated: a tool name containing a newline is
stored JSON-escaped, so it does not occur verbatim in the formatted output. -/
theorem formatToolResults_verbatim_counterexample :
    ¬ ("a\nb".toList
        <:+: formatToolResults [⟨"1".toList, "a\nb".toList, Json.null⟩]) := by
  decide

/-- Claim C8 (amended): `formatToolResults []` is the empty string; for every
non-empty result list whose tool names avoid the characters JSON string
encoding escapes (the double quote, the backslash, and every control
character below U+0020), the output is non-empty and contains each tool name
verbatim. -/
theorem formatToolResults_spec :
    formatToolResults [] = [] ∧
    ∀ rs : List ToolResult, rs ≠ [] →
      (∀ r ∈ rs, ∀ c ∈ r.toolName, jsonPlainChar c = true) →
      formatToolResults rs ≠ [] ∧
      ∀ r ∈ rs, r.toolName <:+: formatToolResults rs := by
  refine ⟨rfl, ?_⟩
  intro rs hne hplain
  constructor
  · cases rs with
    | nil => exact absurd rfl hne
    | cons r0 tl =>
      cases tl with
      | nil =>
        show formatToolResult r0 ≠ []
        simp [formatToolResult, resultOpenMarker]
      | cons r1 tl2 =>
        rw [show formatToolResults (r0 :: r1 :: tl2)
            = formatToolResult r0 ++ ("\n\n".toList ++ formatToolResults (r1 :: tl2)) by
          simp [formatToolResults, List.append_assoc]]
        simp [formatToolResult, resultOpenMarker]
  · intro r hr
    exact (toolName_infix_block r (hplain r hr)).trans (block_infix_output rs r hr)

/-- Witness for claim C8's amended theorem at a concrete result list. -/
theorem formatToolResults_spec_witness :
    formatToolResults [⟨"1".toList, "test".toList, Json.null⟩] ≠ [] ∧
    ∀ r ∈ [(⟨"1".toList, "test".toList, Json.null⟩ : ToolResult)],
      r.toolName <:+: formatToolResults [⟨"1".toList, "test".toList, Json.null⟩] :=
  formatToolResults_spec.2 [⟨"1".toList, "test".toList, Json.null⟩]
    (List.cons_ne_nil _ _) (by decide)

/-! Worker benchmark model, following
`src/examples/next-hybrid/app/transformers-js/util/worker-benchmark.ts`.
Millisecond timestamps are modelled as rationals; JavaScript's unguarded
number division is modelled as `safeDiv`, which refuses a zero divisor, so a
`some` result means no division by zero was performed. -/

/-- The six fixed benchmark prompts of the source file. -/
def BENCHMARK_PROMPTS : List Str :=
  ["Write a one-sentence summary of photosynthesis.".toList,
   "Now explain it to a 10-year-old in one sentence.".toList,
   "Give a real-world analogy in one sentence.".toList,
   "List 3 key terms from your previous explanation.".toList,
   "Turn those terms into a short quiz question.".toList,
   "Answer the quiz question yourself in one sentence.".toList]

/-- What one successful `runWorkerTurn` resolves with. -/
structure BenchTurnOutcome where
  ttftMs : Option ℚ
  totalMs : ℚ
  inputTokens : Nat
  outputTokens : Nat
  usedPastKeyValues : Bool

/-- One per-turn row of the benchmark result (`BenchmarkTurnResult`). -/
structure BenchmarkTurnResult where
  turn : Nat
  ttftMs : Option ℚ
  totalMs : ℚ
  inputTokens : Nat
  outputTokens : Nat
  tokensPerSecond : Option ℚ
  usedPastKeyValues : Bool

/-- The summary block of `WorkerBenchmarkResult`. -/
structure BenchmarkSummary where
  avgTtftMs : ℚ
  avgTotalMs : ℚ
  avgTokensPerSecond : ℚ
  cacheReuseRate : ℚ

/-- The overall benchmark result. -/
structure WorkerBenchmarkResult where
  turns : List BenchmarkTurnResult
  summary : BenchmarkSummary

/-- Division that refuses a zero divisor; `none` marks a division by zero. -/
def safeDiv (a b : ℚ) : Option ℚ := if b = 0 then none else some (a / b)

/-- The `average` helper: zero for an empty list, else sum over length. -/
def average (values : List ℚ) : Option ℚ :=
  if values.length = 0 then some 0
  else safeDiv values.sum (values.length : ℚ)

/-- The guarded `tokensPerSecond` computation of the turn loop: the division
runs only when `outputTokens > 0` and `totalMs > 0`, otherwise the field is
null. -/
def turnTokensPerSecond (t : BenchTurnOutcome) : Option (Option ℚ) :=
  if 0 < t.outputTokens ∧ 0 < t.totalMs then
    match safeDiv (t.outputTokens : ℚ) t.totalMs with
    | none => none
    | some q => some (some (q * 1000))
  else some none

/-- Build the per-turn row `i` from a turn outcome. -/
def mkTurnResult (i : Nat) (t : BenchTurnOutcome) : Option BenchmarkTurnResult :=
  (turnTokensPerSecond t).map fun tps =>
    ⟨i + 1, t.ttftMs, t.totalMs, t.inputTokens, t.outputTokens, tps,
      t.usedPastKeyValues⟩

/-- The cache-reuse denominator: `max(turns.length - 1, 1)`. -/
def reusableTurns (turns : List BenchmarkTurnResult) : Nat :=
  max (turns.length - 1) 1

/-- The summary computation of `runWorkerBenchmark`: the three averages and
the cache reuse rate over `max(turns.length - 1, 1)`. -/
def computeSummary (turns : List BenchmarkTurnResult) : Option BenchmarkSummary := do
  let avgTtft ← average (turns.filterMap fun t => t.ttftMs)
  let avgTotal ← average (turns.map fun t => t.totalMs)
  let avgTps ← average (turns.filterMap fun t => t.tokensPerSecond)
  let reused : Nat := ((turns.drop 1).filter fun t => t.usedPastKeyValues).length
  let rate ← safeDiv (reused : ℚ) (reusableTurns turns : ℚ)
  some ⟨avgTtft, avgTotal, avgTps, rate⟩

/-- Observable worker lifecycle events of one `runWorkerBenchmark` run. -/
inductive WorkerEvent where
  | created
  | loadRequested
  | generateRequested (turn : Nat)
  | terminated
deriving DecidableEq

/-- The turn loop: one generate request per prompt, stopping at the first
turn error, collecting the outcomes. -/
def runTurns (turnOutcome : Nat → Except Str BenchTurnOutcome) :
    Nat → List Str → Except Str (List BenchTurnOutcome) × List WorkerEvent
  | _, [] => (.ok [], [])
  | i, _ :: rest =>
    match turnOutcome i with
    | .error e => (.error e, [.generateRequested i])
    | .ok t =>
      let r := runTurns turnOutcome (i + 1) rest
      (r.1.map fun ts => t :: ts, .generateRequested i :: r.2)

/-- Build the indexed per-turn rows; `none` would mark a division by zero in
some row. -/
def buildTurnRows : List (Nat × BenchTurnOutcome) → Option (List BenchmarkTurnResult)
  | [] => some []
  | p :: tl => do
    let row ← mkTurnResult p.1 p.2
    let rest ← buildTurnRows tl
    some (row :: rest)

/-- Assemble the full benchmark result from the collected outcomes. -/
def benchResultOf (outcomes : List BenchTurnOutcome) : Option WorkerBenchmarkResult := do
  let turns ← buildTurnRows outcomes.enum
  let s ← computeSummary turns
  some ⟨turns, s⟩

/-- The `runWorkerBenchmark` model: create a worker, load the model, run the
six turns, compute the summary — and, via the `finally` block, terminate the
worker no matter how the body ended.  The second component is the ordered
worker event trace. -/
def runWorkerBenchmark (loadOutcome : Except Str Unit)
    (turnOutcome : Nat → Except Str BenchTurnOutcome) :
    Except Str (Option WorkerBenchmarkResult) × List WorkerEvent :=
  let body : Except Str (Option WorkerBenchmarkResult) × List WorkerEvent :=
    match loadOutcome with
    | .error e => (.error e, [.loadRequested])
    | .ok _ =>
      let r := runTurns turnOutcome 0 BENCHMARK_PROMPTS
      match r.1 with
      | .error e => (.error e, .loadRequested :: r.2)
      | .ok outcomes => (.ok (benchResultOf outcomes), .loadRequested :: r.2)
  (body.1, .created :: body.2 ++ [.terminated])

/-- Averaging never divides by zero. -/
theorem average_isSome (vs : List ℚ) : (average vs).isSome = true := by
  unfold average safeDiv
  by_cases h : vs.length = 0
  · simp [h]
  · rw [if_neg h, if_neg (by exact_mod_cast h)]
    rfl

/-- The guarded tokens-per-second computation never divides by zero. -/
theorem turnTokensPerSecond_isSome (t : BenchTurnOutcome) :
    (turnTokensPerSecond t).isSome = true := by
  unfold turnTokensPerSecond safeDiv
  by_cases h : 0 < t.outputTokens ∧ 0 < t.totalMs
  · rw [if_pos h, if_neg (by exact ne_of_gt h.2)]
    rfl
  · rw [if_neg h]
    rfl

/-- Building a per-turn row always succeeds. -/
theorem mkTurnResult_isSome (i : Nat) (t : BenchTurnOutcome) :
    (mkTurnResult i t).isSome = true := by
  unfold mkTurnResult
  have := turnTokensPerSecond_isSome t
  cases h : turnTokensPerSecond t with
  | none => rw [h] at this; cases this
  | some v => simp [h]

/-- The summary computation never divides by zero. -/
theorem computeSummary_isSome (turns : List BenchmarkTurnResult) :
    (computeSummary turns).isSome = true := by
  unfold computeSummary
  have h1 := average_isSome (turns.filterMap fun t => t.ttftMs)
  have h2 := average_isSome (turns.map fun t => t.totalMs)
  have h3 := average_isSome (turns.filterMap fun t => t.tokensPerSecond)
  obtain ⟨a1, e1⟩ := Option.isSome_iff_exists.mp h1
  obtain ⟨a2, e2⟩ := Option.isSome_iff_exists.mp h2
  obtain ⟨a3, e3⟩ := Option.isSome_iff_exists.mp h3
  have hrate : (safeDiv ((turns.tail.filter fun t => t.usedPastKeyValues).length : ℚ)
      (reusableTurns turns : ℚ)).isSome = true := by
    unfold safeDiv
    have hpos : 1 ≤ reusableTurns turns := by
      unfold reusableTurns
      omega
    rw [if_neg (by positivity)]
    rfl
  obtain ⟨a4, e4⟩ := Option.isSome_iff_exists.mp hrate
  simp [e1, e2, e3, e4, List.drop_one]

/-- Building the per-turn rows of any outcome list always succeeds. -/
theorem buildTurnRows_isSome (l : List (Nat × BenchTurnOutcome)) :
    (buildTurnRows l).isSome = true := by
  induction l with
  | nil => rfl
  | cons p tl ih =>
    have h1 := mkTurnResult_isSome p.1 p.2
    obtain ⟨a, ea⟩ := Option.isSome_iff_exists.mp h1
    obtain ⟨b, eb⟩ := Option.isSome_iff_exists.mp ih
    simp [buildTurnRows, ea, eb]

/-- Claim C9: every division in the benchmark summary is guarded.  The
average of an empty list is zero (no division), tokens-per-second is null
unless `outputTokens > 0` and `totalMs > 0`, the cache-reuse denominator is
`max(turns.length - 1, 1)` and is positive, and consequently, for every
sequence of turn outcomes — zero update messages and zero-duration turns
included — the whole result is defined with no division by zero. -/
theorem benchmark_divisions_guarded :
    average [] = some 0
    ∧ (∀ vs : List ℚ, (average vs).isSome = true)
    ∧ (∀ t : BenchTurnOutcome, (turnTokensPerSecond t).isSome = true)
    ∧ (∀ t : BenchTurnOutcome, ¬ (0 < t.outputTokens ∧ 0 < t.totalMs) →
        turnTokensPerSecond t = some none)
    ∧ (∀ turns : List BenchmarkTurnResult,
        reusableTurns turns = max (turns.length - 1) 1 ∧ 0 < reusableTurns turns)
    ∧ (∀ turns : List BenchmarkTurnResult, (computeSummary turns).isSome = true)
    ∧ (∀ (loadOutcome : Except Str Unit)
         (turnOutcome : Nat → Except Str BenchTurnOutcome),
        (match (runWorkerBenchmark loadOutcome turnOutcome).1 with
         | .ok r => r.isSome
         | .error _ => true) = true) := by
  refine ⟨rfl, average_isSome, turnTokensPerSecond_isSome, ?_, ?_,
    computeSummary_isSome, ?_⟩
  · intro t h
    unfold turnTokensPerSecond
    rw [if_neg h]
  · intro turns
    refine ⟨rfl, ?_⟩
    unfold reusableTurns
    omega
  · intro loadOutcome turnOutcome
    unfold runWorkerBenchmark
    cases loadOutcome with
    | error e => rfl
    | ok u =>
      cases hr : (runTurns turnOutcome 0 BENCHMARK_PROMPTS).1 with
      | error e => simp [hr]
      | ok outcomes =>
        simp only [hr]
        unfold benchResultOf
        obtain ⟨ts, ets⟩ := Option.isSome_iff_exists.mp
          (buildTurnRows_isSome outcomes.enum)
        obtain ⟨s, es⟩ := Option.isSome_iff_exists.mp (computeSummary_isSome ts)
        simp [ets, es]

/-- Witness for claim C9's theorem: a zero-output, zero-duration turn gets a
null tokens-per-second field rather than a division. -/
theorem benchmark_divisions_guarded_witness :
    turnTokensPerSecond ⟨none, 0, 0, 0, false⟩ = some none :=
  benchmark_divisions_guarded.2.2.2.1 ⟨none, 0, 0, 0, false⟩
    (by intro h; exact absurd h.1 (by decide))

/-- Claim C10: every benchmark run terminates its worker.  Whatever the load
outcome and whatever each turn's outcome — success or failure at any stage —
the event trace of `runWorkerBenchmark` ends with `terminated` (the `finally`
block), so the promise never settles with the worker still running. -/
theorem benchmark_always_terminates_worker
    (loadOutcome : Except Str Unit)
    (turnOutcome : Nat → Except Str BenchTurnOutcome) :
    (∃ pre, (runWorkerBenchmark loadOutcome turnOutcome).2
        = pre ++ [WorkerEvent.terminated])
    ∧ WorkerEvent.terminated ∈ (runWorkerBenchmark loadOutcome turnOutcome).2 := by
  constructor
  · refine ⟨WorkerEvent.created ::
      (match loadOutcome with
       | .error _ => [WorkerEvent.loadRequested]
       | .ok _ =>
         match (runTurns turnOutcome 0 BENCHMARK_PROMPTS).1 with
         | .error _ => WorkerEvent.loadRequested
             :: (runTurns turnOutcome 0 BENCHMARK_PROMPTS).2
         | .ok _ => WorkerEvent.loadRequested
             :: (runTurns turnOutcome 0 BENCHMARK_PROMPTS).2), ?_⟩
    unfold runWorkerBenchmark
    cases loadOutcome with
    | error e => rfl
    | ok u =>
      cases hr : (runTurns turnOutcome 0 BENCHMARK_PROMPTS).1 with
      | error e => simp [hr]
      | ok outcomes => simp [hr]
  · unfold runWorkerBenchmark
    cases loadOutcome with
    | error e => simp
    | ok u =>
      cases hr : (runTurns turnOutcome 0 BENCHMARK_PROMPTS).1 with
      | error e => simp [hr]
      | ok outcomes => simp [hr]

end BrowserAI
